import Mathlib

/-!
Shallow embedding of the collaboration-graph engine of `src/app.py`
(`build_actor_graph`, `find_actor_connection` and the graph operations they
perform on a `networkx.Graph`), together with theorems settling the claims
about it.

Conventions of the embedding:
* TMDB records become plain structures; the metadata provider (the three
  `get_*` HTTP helpers) becomes a `Provider` of pure functions.
* The `networkx.Graph` is embedded as insertion-ordered lists of nodes and
  edges; an undirected edge is stored once and looked up symmetrically.
* Python float `popularity` scores are embedded as `Nat` (only their order
  matters, for the descending stable sort of `sorted(..., reverse=True)`).
* Provider calls are logged in a `Fetch` trace so that statements about
  "credits are fetched / not fetched" are statements about the model.
* The BFS `while queue:` loop runs on explicit fuel; termination is a
  theorem (claim C6), not an assumption.
-/

/-- A cast-member record as returned by `get_movie_cast` (and searched for
in `build_actor_graph`'s seed-recovery loop): `id`, `name`,
`profile_path`. -/
structure CastMember where
  id : Nat
  name : String
  profile_path : Option String
  deriving Repr, DecidableEq

/-- A movie-credit record as returned by `get_actor_movies`: `id`, `title`,
`popularity`; the seed-recovery loop also reads an (absent in real TMDB
data) `cast` key via `movie.get("cast")`, embedded as an `Option`. -/
structure MovieCredit where
  id : Nat
  title : String
  popularity : Nat
  cast : Option (List CastMember)
  deriving Repr, DecidableEq

/-- The metadata provider: pure functions standing for `get_actor_movies`,
`get_movie_cast` and the `title` field of `get_movie_details`. -/
structure Provider where
  actor_movies : Nat → List MovieCredit
  movie_cast : Nat → List CastMember
  movie_title : Nat → Option String

/-- One logged provider call. -/
inductive Fetch where
  | credits (actor : Nat)
  | cast (movie : Nat)
  | details (movie : Nat)
  deriving Repr, DecidableEq

/-- A graph node: actor id with the `name`/`image` attributes that
`G.add_node` stores. -/
structure Node where
  id : Nat
  name : String
  image : String
  deriving Repr, DecidableEq

/-- A graph edge: unordered pair of actor ids (stored once, in insertion
orientation) with the `movies` title-list attribute. -/
structure Edge where
  a : Nat
  b : Nat
  movies : List String
  deriving Repr, DecidableEq

/-- The `networkx.Graph`: insertion-ordered node and edge lists. -/
structure Graph where
  nodes : List Node
  edges : List Edge
  deriving Repr, DecidableEq

/-- Does edge `e` connect the unordered pair `{x, y}`? -/
def edgeMatches (e : Edge) (x y : Nat) : Bool :=
  (e.a == x && e.b == y) || (e.a == y && e.b == x)

def Graph.empty : Graph := ⟨[], []⟩

/-- `G.has_node(i)` / `i in G`. -/
def Graph.hasNode (g : Graph) (i : Nat) : Bool :=
  g.nodes.any (fun n => n.id == i)

/-- Lookup of a node record by id. -/
def Graph.findNode (g : Graph) (i : Nat) : Option Node :=
  g.nodes.find? (fun n => n.id == i)

/-- `G.add_node(i, name=..., image=...)`: inserts, or updates the
attributes of an existing node. -/
def Graph.addNode (g : Graph) (i : Nat) (name image : String) : Graph :=
  if g.hasNode i then
    { g with nodes := g.nodes.map (fun n => if n.id == i then ⟨i, name, image⟩ else n) }
  else
    { g with nodes := g.nodes ++ [⟨i, name, image⟩] }

/-- The `movies` attribute of the edge `{x, y}`, when present. -/
def Graph.findEdge (g : Graph) (x y : Nat) : Option (List String) :=
  (g.edges.find? (fun e => edgeMatches e x y)).map (fun e => e.movies)

/-- `G.has_edge(x, y)`. -/
def Graph.hasEdge (g : Graph) (x y : Nat) : Bool :=
  (g.findEdge x y).isSome

/-- The endpoint auto-insertion `nx.add_edge` performs: a missing endpoint
becomes a node (attribute-less in networkx, embedded with empty
attributes). -/
def Graph.ensureNode (g : Graph) (i : Nat) : Graph :=
  if g.hasNode i then g else g.addNode i "" ""

/-- `G.add_edge(x, y, movies=ms)`: auto-inserts missing endpoint nodes,
then sets the `movies` attribute of the edge, appending a fresh edge if
absent. -/
def Graph.addEdge (g : Graph) (x y : Nat) (ms : List String) : Graph :=
  let g := (g.ensureNode x).ensureNode y
  if g.hasEdge x y then
    { g with edges := g.edges.map (fun e => if edgeMatches e x y then { e with movies := ms } else e) }
  else
    { g with edges := g.edges ++ [⟨x, y, ms⟩] }

/-- `G[x][y]["movies"].append(t)`. -/
def Graph.appendEdgeMovie (g : Graph) (x y : Nat) (t : String) : Graph :=
  { g with edges := g.edges.map (fun e => if edgeMatches e x y then { e with movies := e.movies ++ [t] } else e) }

/-- `set(G.neighbors(i))` as a first-encounter-ordered duplicate-free
list. -/
def Graph.neighbors (g : Graph) (i : Nat) : List Nat :=
  (g.edges.filterMap (fun e =>
    if e.a == i then some e.b else if e.b == i then some e.a else none)).dedup

/-- `nx.compose(g, h)`: node and edge sets are unioned; on a collision the
second graph's attributes replace the first's. -/
def Graph.compose (g h : Graph) : Graph :=
  { nodes :=
      g.nodes.map (fun n =>
        match h.nodes.find? (fun m => m.id == n.id) with
        | some m => m
        | none => n)
      ++ h.nodes.filter (fun m => !(g.nodes.any (fun n => n.id == m.id))),
    edges :=
      g.edges.map (fun e =>
        match h.edges.find? (fun f => edgeMatches f e.a e.b) with
        | some f => { e with movies := f.movies }
        | none => e)
      ++ h.edges.filter (fun f => !(g.edges.any (fun e => edgeMatches e f.a f.b))) }

/-- `f"https://image.tmdb.org/t/p/w185{profile_path}" if profile_path else ""`
(Python truthiness: `None` and `""` are falsy). -/
def imageUrl : Option String → String
  | some p => if p = "" then "" else "https://image.tmdb.org/t/p/w185" ++ p
  | none => ""

/-- Stable insertion of a credit into a popularity-descending list: models
one step of Python's stable `sorted(..., key=popularity, reverse=True)`
(ties keep input order). -/
def insertPopDesc (m : MovieCredit) : List MovieCredit → List MovieCredit
  | [] => [m]
  | x :: xs => if x.popularity < m.popularity then m :: x :: xs else x :: insertPopDesc m xs

/-- `sorted(movies, key=lambda x: x.get("popularity", 0), reverse=True)`. -/
def sortPopDesc (ms : List MovieCredit) : List MovieCredit :=
  ms.foldl (fun acc m => insertPopDesc m acc) []

/-- Lines 88-94 of `app.py`: scan the seed's credit records for a `cast`
entry naming the seed actor (first hit wins; records without a truthy
`cast` key are skipped). -/
def findSeedData (start : Nat) (credits : List MovieCredit) : Option CastMember :=
  credits.foldl (fun acc movie =>
    match acc, movie.cast with
    | some d, _ => some d
    | none, some cs => if cs.isEmpty then none else cs.find? (fun c => c.id == start)
    | none, none => none) none

/-- Lines 96-98 of `app.py`: the recovered seed record, or the placeholder
`{"id": id, "name": f"Actor {id}", "profile_path": None}`. -/
def seedData (p : Provider) (start : Nat) : CastMember :=
  (findSeedData start (p.actor_movies start)).getD ⟨start, "Actor " ++ toString start, none⟩

/-- The crawler's state: the graph under construction, both visitation
sets, the BFS queue of `(actor_id, depth)` pairs, the provider-call trace,
and a ghost log of the `(actor, depth)` entries expanded inside the loop
(exactly the loop's `get_actor_movies` calls). -/
structure CrawlState where
  g : Graph
  visitedActors : List Nat
  visitedMovies : List Nat
  queue : List (Nat × Nat)
  trace : List Fetch
  expanded : List (Nat × Nat)
  deriving Repr

/-- Lines 140-160 of `app.py`: process one cast member of an expanded
movie — ensure its node, merge/add the edge to the expanded actor, enqueue
it if unvisited. -/
def processCast (actor depth : Nat) (va : List Nat) (title : String)
    (st : Graph × List (Nat × Nat)) (cm : CastMember) : Graph × List (Nat × Nat) :=
  let g := st.1
  let queue := st.2
  let g := if g.hasNode cm.id then g else g.addNode cm.id cm.name (imageUrl cm.profile_path)
  let g :=
    if actor != cm.id then
      if g.hasEdge actor cm.id then g.appendEdgeMovie actor cm.id title
      else g.addEdge actor cm.id [title]
    else g
  let queue := if va.contains cm.id then queue else queue ++ [(cm.id, depth + 1)]
  (g, queue)

/-- Lines 127-160 of `app.py`: process one retained movie of the expanded
actor — skip if its id was already visited, else fetch its cast and fold
`processCast` over the first 10 members. -/
def processMovie (p : Provider) (actor depth : Nat) (va : List Nat)
    (st : Graph × List Nat × List (Nat × Nat) × List Fetch) (movie : MovieCredit) :
    Graph × List Nat × List (Nat × Nat) × List Fetch :=
  let (g, vm, queue, tr) := st
  if vm.contains movie.id then (g, vm, queue, tr)
  else
    let vm := movie.id :: vm
    let cast := p.movie_cast movie.id
    let tr := tr ++ [Fetch.cast movie.id]
    let gq := (cast.take 10).foldl (processCast actor depth va movie.title) (g, queue)
    (gq.1, vm, gq.2, tr)

/-- Lines 121-160 of `app.py`: expand one dequeued actor — fetch its
credits, keep the popularity-descending top `maxMovies`, fold
`processMovie`. -/
def expandActor (p : Provider) (maxMovies actor depth : Nat) (s : CrawlState) : CrawlState :=
  let movies := (sortPopDesc (p.actor_movies actor)).take maxMovies
  let tr := s.trace ++ [Fetch.credits actor]
  let r := movies.foldl (processMovie p actor depth s.visitedActors) (s.g, s.visitedMovies, s.queue, tr)
  { g := r.1, visitedActors := s.visitedActors, visitedMovies := r.2.1,
    queue := r.2.2.1, trace := r.2.2.2, expanded := s.expanded ++ [(actor, depth)] }

/-- Lines 109-160 of `app.py`: the `while queue:` loop, on fuel. The
returned flag records whether the loop genuinely finished (queue empty). -/
def crawlLoop (p : Provider) (maxDepth maxMovies : Nat) : Nat → CrawlState → CrawlState × Bool
  | 0, s => (s, s.queue.isEmpty)
  | fuel + 1, s =>
    match s.queue with
    | [] => (s, true)
    | (actor, depth) :: rest =>
      if s.visitedActors.contains actor then
        crawlLoop p maxDepth maxMovies fuel { s with queue := rest }
      else
        let s := { s with visitedActors := actor :: s.visitedActors, queue := rest }
        if maxDepth ≤ depth then crawlLoop p maxDepth maxMovies fuel s
        else crawlLoop p maxDepth maxMovies fuel (expandActor p maxMovies actor depth s)

/-- Lines 80-162 of `app.py`: `build_actor_graph(start, max_depth,
max_movies_per_actor)` — seed-record recovery (one unconditional
`get_actor_movies(start)` call), seed node insertion, then the BFS
loop. -/
def build_actor_graph (p : Provider) (start maxDepth maxMovies fuel : Nat) : CrawlState × Bool :=
  let sd := seedData p start
  let g := Graph.empty.addNode start sd.name (imageUrl sd.profile_path)
  crawlLoop p maxDepth maxMovies fuel
    { g := g, visitedActors := [], visitedMovies := [],
      queue := [(start, 0)], trace := [Fetch.credits start], expanded := [] }

/-- `{m["id"] for m in movies[:10]}` as a first-occurrence-ordered
duplicate-free list. -/
def topMovieIds (ms : List MovieCredit) : List Nat :=
  ((ms.take 10).map (fun m => m.id)).dedup

/-- Lines 198-206 of `app.py`: for one neighborhood pair `(a1, a2)`, walk
their common movie ids; add a bridge edge only when the pair has no edge
yet. -/
def bridgeMovies (p : Provider) (a1 a2 : Nat) :
    List Nat → Graph × List Fetch × Nat → Graph × List Fetch × Nat
  | [], st => st
  | mid :: rest, st =>
    let (g, tr, count) := st
    let tr := tr ++ [Fetch.details mid]
    let title := (p.movie_title mid).getD ("Movie " ++ toString mid)
    let st :=
      if g.hasEdge a1 a2 then (g, tr, count)
      else (g.addEdge a1 a2 [title], tr, count + 1)
    bridgeMovies p a1 a2 rest st

/-- Lines 191-210 of `app.py`: the inner loop over `actor2`'s neighborhood;
breaks once `bridges_created` reaches 20. -/
def bridgeInner (p : Provider) (a1 : Nat) (mids1 : List Nat) :
    List Nat → Graph × List Fetch × Nat → Graph × List Fetch × Nat
  | [], st => st
  | a2 :: rest, st =>
    let (g, tr, count) := st
    let tr := tr ++ [Fetch.credits a2]
    let mids2 := topMovieIds (p.actor_movies a2)
    let common := mids1.filter (fun mid => mids2.contains mid)
    let st := bridgeMovies p a1 a2 common (g, tr, count)
    if 20 ≤ st.2.2 then st else bridgeInner p a1 mids1 rest st

/-- Lines 187-213 of `app.py`: the outer loop over `actor1`'s neighborhood;
breaks once `bridges_created` reaches 20. -/
def bridgeOuter (p : Provider) (n2s : List Nat) :
    List Nat → Graph × List Fetch × Nat → Graph × List Fetch × Nat
  | [], st => st
  | a1 :: rest, st =>
    let (g, tr, count) := st
    let tr := tr ++ [Fetch.credits a1]
    let mids1 := topMovieIds (p.actor_movies a1)
    let st := bridgeInner p a1 mids1 n2s (g, tr, count)
    if 20 ≤ st.2.2 then st else bridgeOuter p n2s rest st

/-- One round of BFS frontier growth over the node universe of `g`: keep
`s` and append every not-yet-reached node adjacent to `s`. -/
def stepSet (g : Graph) (s : List Nat) : List Nat :=
  s ++ ((g.nodes.map (fun n => n.id)).dedup).filter
    (fun v => !s.contains v && s.any (fun u => g.hasEdge u v))

/-- Nodes of `g` reachable from `a` in at most `k` hops. -/
def reachK (g : Graph) (a : Nat) : Nat → List Nat
  | 0 => [a]
  | k + 1 => stepSet g (reachK g a k)

/-- Least `j ≥ k` with `pred j`, searching at most `fuel` candidates. -/
def findLeastAux (pred : Nat → Bool) : Nat → Nat → Option Nat
  | 0, _ => none
  | fuel + 1, k => if pred k then some k else findLeastAux pred fuel (k + 1)

/-- The BFS distance from `a` to `b` in `g`: the least hop count at which
`b` is reached (searching up to the node count, after which `reachK` has
saturated). -/
def firstReach (g : Graph) (a b : Nat) : Option Nat :=
  findLeastAux (fun k => (reachK g a k).contains b) (g.nodes.length + 1) 0

/-- Walk a BFS shortest path backwards: a node reached in `k + 1` hops but
not `k` has a predecessor reached in `k` hops. -/
def extractPath (g : Graph) (a : Nat) : Nat → Nat → List Nat
  | 0, _ => [a]
  | k + 1, v =>
    if (reachK g a k).contains v then extractPath g a k v
    else
      match (reachK g a k).find? (fun u => g.hasEdge u v) with
      | some u => extractPath g a k u ++ [v]
      | none => [v]

/-- Modelled from the spec: `nx.shortest_path(G, a, b)` (§4.4, "standard
unweighted BFS shortest path"; networkx source is not part of this
repository). Absent endpoints and the caught `NetworkXNoPath` both become
`none`. -/
def Graph.shortest_path (g : Graph) (a b : Nat) : Option (List Nat) :=
  if g.hasNode a && g.hasNode b then
    match firstReach g a b with
    | some k => some (extractPath g a k b)
    | none => none
  else none

/-- The observable outcome of `find_actor_connection`: the final graph, the
returned path, the provider-call trace and the `bridges_created` counter. -/
structure ConnResult where
  g : Graph
  path : Option (List Nat)
  trace : List Fetch
  bridges : Nat
  deriving Repr

/-- Lines 164-225 of `app.py`: `find_actor_connection(actor1_id,
actor2_id)` — first crawl; if `actor2` is absent, second crawl, compose,
and the bridging loops; finally the guarded shortest-path call. -/
def find_actor_connection (p : Provider) (a1 a2 fuel : Nat) : ConnResult :=
  let s1 := (build_actor_graph p a1 2 5 fuel).1
  if s1.g.hasNode a2 then
    { g := s1.g,
      path := if s1.g.hasNode a1 && s1.g.hasNode a2 then s1.g.shortest_path a1 a2 else none,
      trace := s1.trace, bridges := 0 }
  else
    let s2 := (build_actor_graph p a2 2 5 fuel).1
    let g := s1.g.compose s2.g
    let n1s := (g.neighbors a1).take 10
    let n2s := (g.neighbors a2).take 10
    let r := bridgeOuter p n2s n1s (g, s1.trace ++ s2.trace, 0)
    let g := r.1
    { g := g,
      path := if g.hasNode a1 && g.hasNode a2 then g.shortest_path a1 a2 else none,
      trace := r.2.1, bridges := r.2.2 }

/-! Concrete providers used as test inputs for the claims. -/

/-- Cast-member record with no profile image. -/
def member (i : Nat) (n : String) : CastMember := ⟨i, n, none⟩

/-- Credit record with no `cast` key (as real TMDB credit payloads). -/
def credit (i : Nat) (t : String) (pop : Nat) : MovieCredit := ⟨i, t, pop, none⟩

/-- Scenario of claim C1, over arbitrary actor ids: seed `X`'s only credit
is movie 100 titled `"M"`, whose cast is `[X, Y, Z]`. -/
def scenarioProvider (X Y Z : Nat) : Provider :=
  { actor_movies := fun a => if a = X then [credit 100 "M" 3] else [],
    movie_cast := fun m => if m = 100 then [member X "NX", member Y "NY", member Z "NZ"] else [],
    movie_title := fun _ => none }

/-- Provider with no data at all. -/
def emptyProvider : Provider := ⟨fun _ => [], fun _ => [], fun _ => none⟩

/-- Provider for the bridging-drop scenario (claim C3): the two crawls stay
disjoint; bridge neighbors 3 and 4 share the two movies 300 and 301. -/
def dropProvider : Provider :=
  { actor_movies := fun a =>
      if a = 1 then [credit 100 "M1" 5]
      else if a = 2 then [credit 200 "M2" 5]
      else if a = 3 then [credit 300 "B1" 2, credit 301 "B2" 1]
      else if a = 4 then [credit 300 "B1" 2, credit 301 "B2" 1]
      else [],
    movie_cast := fun m =>
      if m = 100 then [member 1 "A1", member 3 "N1"]
      else if m = 200 then [member 2 "A2", member 4 "N2"]
      else [],
    movie_title := fun m => if m = 300 then some "B1" else if m = 301 then some "B2" else none }

/-- Provider for the self-loop scenario (claim C4): actor 3 is a neighbor
of both seeds, and has a movie of its own, so bridging pairs 3 with
itself. -/
def loopProvider : Provider :=
  { actor_movies := fun a =>
      if a = 1 then [credit 100 "M1" 5]
      else if a = 2 then [credit 200 "M2" 5]
      else if a = 3 then [credit 300 "B" 2]
      else [],
    movie_cast := fun m =>
      if m = 100 then [member 1 "A1", member 3 "N"]
      else if m = 200 then [member 2 "A2", member 3 "N"]
      else [],
    movie_title := fun m => if m = 300 then some "B" else none }

/-- Two synthetic graphs sharing the edge `{1, 2}` with different title
lists, for the merge-collision claim C2. -/
def gLeft : Graph := ⟨[⟨1, "X", ""⟩, ⟨2, "Y", ""⟩], [⟨1, 2, ["A"]⟩]⟩

/-- Right-hand graph of the C2 collision example. -/
def gRight : Graph := ⟨[⟨2, "Y2", "pic"⟩, ⟨3, "Z", ""⟩], [⟨2, 1, ["B"]⟩]⟩

/-! Specification-side notions the claims quantify over. -/

/-- Every consecutive pair of the list is an edge of `g`. -/
def chainOk (g : Graph) : List Nat → Bool
  | [] => true
  | [_] => true
  | u :: v :: rest => g.hasEdge u v && chainOk g (v :: rest)

/-- `q` is a path from `a` to `b` in `g`: nonempty, starts at `a`, ends at
`b`, consecutive pairs are edges. -/
def validPath (g : Graph) (q : List Nat) (a b : Nat) : Bool :=
  q.head? == some a && q.getLast? == some b && chainOk g q

/-- Well-formedness that `networkx` maintains by construction: every edge
endpoint is a node (`add_edge` auto-inserts endpoints). -/
def Graph.wf (g : Graph) : Bool :=
  g.edges.all (fun e => g.hasNode e.a && g.hasNode e.b)

/-- At most one edge per unordered node pair (the simple-graph invariant of
`networkx.Graph`). -/
def EdgesUnique (g : Graph) : Prop :=
  g.edges.Pairwise (fun e f => edgeMatches f e.a e.b = false)

/-- Weight of one queue entry for the crawl-termination measure: an entry
at depth `d` can cause at most `K` enqueues per expansion, and only while
`d < D`. -/
def entryWeight (K D d : Nat) : Nat := (K + 1) ^ (D - d)

/-- Termination measure of the crawl queue. -/
def queueMeasure (K D : Nat) (q : List (Nat × Nat)) : Nat :=
  (q.map (fun e => entryWeight K D e.2)).sum

/-! Theorems.  First the concrete evaluations that settle the refuted
claims, then the general developments. -/

/-- Claim C1, counterexample: in the scenario (seed 1, single movie 100
`"M"` with cast `[1, 2, 3]`, crawl depth 1) the crawler does record edges
`(1,2)` and `(1,3)`, but no edge `(2,3)` between the two cast members
neither of whom is the expanded actor — contradicting the claimed third
edge. -/
theorem C1_counterexample :
    (build_actor_graph (scenarioProvider 1 2 3) 1 1 5 10).1.g.hasEdge 2 3 = false ∧
    (build_actor_graph (scenarioProvider 1 2 3) 1 1 5 10).1.g.hasEdge 1 2 = true ∧
    (build_actor_graph (scenarioProvider 1 2 3) 1 1 5 10).1.g.hasEdge 1 3 = true ∧
    ((build_actor_graph (scenarioProvider 1 2 3) 1 1 5 10).1.g.nodes.map (fun n => n.id)) = [1, 2, 3] := by
  decide

/-- Claim C2, counterexample: composing two graphs that share edge `{1,2}`
(title lists `["A"]` and `["B"]`) keeps only the second graph's list
`["B"]` — not the claimed concatenation `["A", "B"]`. -/
theorem C2_counterexample :
    (gLeft.compose gRight).findEdge 1 2 = some ["B"] ∧
    (gLeft.compose gRight).findEdge 1 2 ≠ some (["A"] ++ ["B"]) := by
  decide

/-- Claim C3, counterexample: in the bridging scenario the neighborhood
pair `(3, 4)` shares the two movies 300 and 301, yet the bridge edge keeps
only the first title `["B1"]`: the second discovery is dropped by the
`has_edge` guard instead of being appended. -/
theorem C3_counterexample :
    ((topMovieIds (dropProvider.actor_movies 3)).filter
      (fun mid => (topMovieIds (dropProvider.actor_movies 4)).contains mid)) = [300, 301] ∧
    (find_actor_connection dropProvider 1 2 20).g.findEdge 3 4 = some ["B1"] ∧
    (find_actor_connection dropProvider 1 2 20).g.findEdge 3 4 ≠ some ["B1", "B2"] := by
  decide

/-- Claim C4: the bridging phase links actor 3 to itself when 3 is a
neighbor of both seeds — the final graph contains the self-loop edge
`(3,3)` that the spec forbids (the crawler guards `actor_id != cast_id`;
the bridging loop has no such guard). -/
theorem C4_selfloop_created :
    (find_actor_connection loopProvider 1 2 20).g.hasEdge 3 3 = true ∧
    (find_actor_connection loopProvider 1 2 20).g.findEdge 3 3 = some ["B"] := by
  decide

/-- Claim C5, counterexample: with `max_depth = 0` the seed actor is
reached at depth `0 ≥ max_depth` and is never expanded by the loop
(`expanded = []`), yet its movie credits are still fetched once, by the
seed-recovery code that runs before the loop. -/
theorem C5_counterexample :
    (build_actor_graph emptyProvider 7 0 5 5).1.trace = [Fetch.credits 7] ∧
    (build_actor_graph emptyProvider 7 0 5 5).1.expanded = [] := by
  decide


/-! General list and graph-operation lemmas shared by the developments
below. -/

theorem find?_map_of_pred {α : Type} (p : α → Bool) (f : α → α)
    (hp : ∀ x, p (f x) = p x) :
    ∀ l : List α, (l.map f).find? p = (l.find? p).map f
  | [] => rfl
  | x :: xs => by
    by_cases h : p x = true
    · rw [List.map_cons, List.find?_cons_of_pos _ ((hp x).trans h),
        List.find?_cons_of_pos _ h, Option.map_some']
    · rw [List.map_cons, List.find?_cons_of_neg _ (by simp [hp x, h]),
        List.find?_cons_of_neg _ (by simp [h]), find?_map_of_pred p f hp xs]

theorem edgeMatches_update_movies (e : Edge) (ms : List String) (u v : Nat) :
    edgeMatches { e with movies := ms } u v = edgeMatches e u v := rfl

theorem edgeMatches_mk_self (x y : Nat) (ms : List String) :
    edgeMatches ⟨x, y, ms⟩ x y = true := by
  simp [edgeMatches]

theorem addNode_edges (g : Graph) (i : Nat) (nm im : String) :
    (g.addNode i nm im).edges = g.edges := by
  unfold Graph.addNode; split <;> rfl

theorem ensureNode_edges (g : Graph) (i : Nat) :
    (g.ensureNode i).edges = g.edges := by
  unfold Graph.ensureNode; split
  · rfl
  · exact addNode_edges ..

theorem findEdge_congr_edges {g h : Graph} (he : g.edges = h.edges) (x y : Nat) :
    g.findEdge x y = h.findEdge x y := by
  unfold Graph.findEdge; rw [he]

theorem hasEdge_congr_edges {g h : Graph} (he : g.edges = h.edges) (x y : Nat) :
    g.hasEdge x y = h.hasEdge x y := by
  unfold Graph.hasEdge; rw [findEdge_congr_edges he]

theorem hasEdge_ensureNode (g : Graph) (i x y : Nat) :
    (g.ensureNode i).hasEdge x y = g.hasEdge x y :=
  hasEdge_congr_edges (ensureNode_edges g i) x y

theorem addEdge_edges (g : Graph) (x y : Nat) (ms : List String) :
    (g.addEdge x y ms).edges =
      if g.hasEdge x y
      then g.edges.map (fun e => if edgeMatches e x y then { e with movies := ms } else e)
      else g.edges ++ [⟨x, y, ms⟩] := by
  unfold Graph.addEdge
  simp only [hasEdge_ensureNode, ensureNode_edges]
  split <;> rfl

theorem findEdge_eq_none_iff (g : Graph) (x y : Nat) :
    g.findEdge x y = none ↔ g.edges.find? (fun e => edgeMatches e x y) = none := by
  unfold Graph.findEdge
  cases g.edges.find? (fun e => edgeMatches e x y) <;> simp

theorem hasEdge_false_find? {g : Graph} {x y : Nat} (h : g.hasEdge x y = false) :
    g.edges.find? (fun e => edgeMatches e x y) = none := by
  unfold Graph.hasEdge at h
  exact (findEdge_eq_none_iff g x y).mp (Option.not_isSome_iff_eq_none.mp (by simp [h]))

theorem findEdge_addEdge (g : Graph) (x y : Nat) (ms : List String) :
    (g.addEdge x y ms).findEdge x y = some ms := by
  have he := addEdge_edges g x y ms
  unfold Graph.findEdge
  rw [he]
  by_cases h : g.hasEdge x y = true
  · rw [if_pos h]
    rw [find?_map_of_pred _ _ (fun e => by split <;> rfl)]
    obtain ⟨e, hfind⟩ : ∃ e, g.edges.find? (fun e => edgeMatches e x y) = some e := by
      have h' : (g.edges.find? (fun e => edgeMatches e x y)).isSome = true := by
        unfold Graph.hasEdge Graph.findEdge at h
        simpa [Option.isSome_map'] using h
      exact Option.isSome_iff_exists.mp h'
    have hpe := List.find?_some hfind
    rw [hfind]
    simp [hpe]
  · have hfalse : g.hasEdge x y = false := by simpa using h
    rw [if_neg h]
    rw [List.find?_append, hasEdge_false_find? hfalse]
    simp [List.find?_cons, edgeMatches]

theorem hasEdge_addEdge (g : Graph) (x y : Nat) (ms : List String) :
    (g.addEdge x y ms).hasEdge x y = true := by
  unfold Graph.hasEdge
  rw [findEdge_addEdge]
  rfl

/-! Bridge-budget development (claim C9); the first lemma is also the
"second bridge movie is dropped" fact of claim C3. -/

theorem bridgeMovies_of_hasEdge (p : Provider) (a1 a2 : Nat) :
    ∀ (common : List Nat) (g : Graph) (tr : List Fetch) (c : Nat),
      g.hasEdge a1 a2 = true →
      ∃ tr', bridgeMovies p a1 a2 common (g, tr, c) = (g, tr', c)
  | [], g, tr, c, _ => ⟨tr, rfl⟩
  | mid :: rest, g, tr, c, h => by
    unfold bridgeMovies
    simp only [h, if_true]
    exact bridgeMovies_of_hasEdge p a1 a2 rest g _ c h

theorem bridgeMovies_count_le (p : Provider) (a1 a2 : Nat) :
    ∀ (common : List Nat) (g : Graph) (tr : List Fetch) (c : Nat),
      (bridgeMovies p a1 a2 common (g, tr, c)).2.2 ≤ c + 1
  | [], g, tr, c => Nat.le_succ c
  | mid :: rest, g, tr, c => by
    unfold bridgeMovies
    by_cases h : g.hasEdge a1 a2 = true
    · simp only [h, if_true]
      exact bridgeMovies_count_le p a1 a2 rest g _ c
    · have hfalse : g.hasEdge a1 a2 = false := by simpa using h
      simp only [hfalse, Bool.false_eq_true, if_false]
      obtain ⟨tr', heq⟩ := bridgeMovies_of_hasEdge p a1 a2 rest
        (g.addEdge a1 a2 [(p.movie_title mid).getD ("Movie " ++ toString mid)]) _ (c + 1)
        (hasEdge_addEdge ..)
      rw [heq]

theorem bridgeInner_count_le (p : Provider) (a1 : Nat) (mids1 : List Nat) :
    ∀ (a2s : List Nat) (st : Graph × List Fetch × Nat),
      st.2.2 ≤ 19 → (bridgeInner p a1 mids1 a2s st).2.2 ≤ 20
  | [], st, hc => le_trans hc (by norm_num)
  | a2 :: rest, ⟨g, tr, c⟩, hc => by
    unfold bridgeInner
    rcases hq : bridgeMovies p a1 a2
        (mids1.filter (fun mid => (topMovieIds (p.actor_movies a2)).contains mid))
        (g, tr ++ [Fetch.credits a2], c) with ⟨g', tr', c'⟩
    have hb : c' ≤ c + 1 := by
      have hle := bridgeMovies_count_le p a1 a2
        (mids1.filter (fun mid => (topMovieIds (p.actor_movies a2)).contains mid)) g
        (tr ++ [Fetch.credits a2]) c
      rw [hq] at hle
      exact hle
    simp only [hq]
    by_cases h20 : 20 ≤ c'
    · simp only [h20, if_true]
      simp only [] at hc
      omega
    · simp only [h20, if_false]
      exact bridgeInner_count_le p a1 mids1 rest ⟨g', tr', c'⟩ (by simp; omega)

theorem bridgeOuter_count_le (p : Provider) (n2s : List Nat) :
    ∀ (n1s : List Nat) (st : Graph × List Fetch × Nat),
      st.2.2 ≤ 19 → (bridgeOuter p n2s n1s st).2.2 ≤ 20
  | [], st, hc => le_trans hc (by norm_num)
  | a1 :: rest, ⟨g, tr, c⟩, hc => by
    unfold bridgeOuter
    rcases hq : bridgeInner p a1 (topMovieIds (p.actor_movies a1)) n2s
        (g, tr ++ [Fetch.credits a1], c) with ⟨g', tr', c'⟩
    have hb : c' ≤ 20 := by
      have hle := bridgeInner_count_le p a1 (topMovieIds (p.actor_movies a1)) n2s
        (g, tr ++ [Fetch.credits a1], c) (by simpa using hc)
      rw [hq] at hle
      exact hle
    simp only [hq]
    by_cases h20 : 20 ≤ c'
    · simp only [h20, if_true]
      exact hb
    · simp only [h20, if_false]
      exact bridgeOuter_count_le p n2s rest ⟨g', tr', c'⟩ (by simp; omega)

/-- Claim C9: the bridging phase creates at most 20 bridge edges: the
neighborhood loops stop at the budget checkpoints, and the final
`bridges_created` counter never exceeds 20, for every provider,
neighborhood pair, and starting graph — and hence in every
`find_actor_connection` run. -/
theorem C9_bridge_budget :
    (∀ (p : Provider) (n2s n1s : List Nat) (g : Graph) (tr : List Fetch),
      (bridgeOuter p n2s n1s (g, tr, 0)).2.2 ≤ 20) ∧
    (∀ (p : Provider) (a1 a2 fuel : Nat),
      (find_actor_connection p a1 a2 fuel).bridges ≤ 20) := by
  constructor
  · intro p n2s n1s g tr
    exact bridgeOuter_count_le p n2s n1s (g, tr, 0) (by norm_num)
  · intro p a1 a2 fuel
    unfold find_actor_connection
    by_cases h : ((build_actor_graph p a1 2 5 fuel).1).g.hasNode a2 = true
    · simp only [h, if_true]
      norm_num
    · have h' : ((build_actor_graph p a1 2 5 fuel).1).g.hasNode a2 = false := by
        simpa using h
      simp only [h', Bool.false_eq_true, if_false]
      exact bridgeOuter_count_le _ _ _ _ (by norm_num)

/-! Depth-bound development (claim C5). -/

theorem expandActor_expanded (p : Provider) (m actor depth : Nat) (s : CrawlState) :
    (expandActor p m actor depth s).expanded = s.expanded ++ [(actor, depth)] := rfl

theorem crawlLoop_expanded_lt (p : Provider) (D m : Nat) :
    ∀ (fuel : Nat) (s : CrawlState),
      (∀ e ∈ s.expanded, e.2 < D) →
      ∀ e ∈ ((crawlLoop p D m fuel s).1).expanded, e.2 < D
  | 0, s, hs => hs
  | fuel + 1, s, hs => by
    unfold crawlLoop
    rcases hq : s.queue with _ | ⟨⟨actor, depth⟩, rest⟩
    · simpa using hs
    · simp only []
      by_cases hv : s.visitedActors.contains actor = true
      · simp only [hv, if_true]
        exact crawlLoop_expanded_lt p D m fuel _ hs
      · have hv' : s.visitedActors.contains actor = false := by simpa using hv
        simp only [hv', Bool.false_eq_true, if_false]
        by_cases hd : D ≤ depth
        · simp only [hd, if_true]
          exact crawlLoop_expanded_lt p D m fuel _ hs
        · simp only [hd, if_false]
          refine crawlLoop_expanded_lt p D m fuel _ ?_
          rw [expandActor_expanded]
          intro e he
          rcases List.mem_append.mp he with h1 | h1
          · exact hs e h1
          · have he2 : e = (actor, depth) := by simpa using h1
            subst he2
            simp only []
            omega

/-- Claim C5, amended: inside the BFS loop no actor is ever expanded (its
credits fetched) at a depth `≥ max_depth` — every entry of the expansion
log has depth `< max_depth`, for every provider and every parameter choice
(so with `max_depth = 0` the loop expands nothing).  The seed's credits
are nonetheless always fetched once *before* the loop, for display-name
recovery (see the counterexample).  An actor reached at exactly
`max_depth` can still be an edge endpoint: in the depth-1 scenario crawl,
actor 2 carries an edge yet was never expanded. -/
theorem C5_loop_depth_bound :
    (∀ (p : Provider) (start D m fuel : Nat) (e : Nat × Nat),
      e ∈ ((build_actor_graph p start D m fuel).1).expanded → e.2 < D) ∧
    ((build_actor_graph (scenarioProvider 1 2 3) 1 1 5 10).1.g.hasEdge 1 2 = true ∧
     (build_actor_graph (scenarioProvider 1 2 3) 1 1 5 10).1.expanded = [(1, 0)]) := by
  constructor
  · intro p start D m fuel e he
    exact crawlLoop_expanded_lt p D m fuel _ (by simp) e he
  · constructor <;> decide

/-- Witness for `C5_loop_depth_bound`: in the scenario crawl with depth
limit 1, the seed was expanded at depth 0 < 1. -/
theorem C5_loop_depth_bound_witness :
    (1, 0) ∈ ((build_actor_graph (scenarioProvider 1 2 3) 1 1 5 10).1).expanded ∧
    ((1, 0) : Nat × Nat).2 < 1 :=
  ⟨by decide, C5_loop_depth_bound.1 (scenarioProvider 1 2 3) 1 1 5 10 (1, 0) (by decide)⟩

/-! Seed-node development (claim C10): a node record already in the graph
is never altered by the crawl loop (all node insertions are guarded by
`has_node`). -/

/-- `g'` keeps every node record of `g` unchanged. -/
def nodePres (g g' : Graph) : Prop :=
  ∀ i n, g.findNode i = some n → g'.findNode i = some n

theorem nodePres_refl (g : Graph) : nodePres g g := fun _ _ h => h

theorem nodePres_trans {g g' g'' : Graph} (h1 : nodePres g g') (h2 : nodePres g' g'') :
    nodePres g g'' := fun i n h => h2 i n (h1 i n h)

theorem findNode_congr_nodes {g h : Graph} (hn : g.nodes = h.nodes) (i : Nat) :
    g.findNode i = h.findNode i := by
  unfold Graph.findNode; rw [hn]

theorem findNode_append_right (g : Graph) (l : List Node) (i : Nat) (n : Node)
    (h : g.findNode i = some n) :
    ({ g with nodes := g.nodes ++ l } : Graph).findNode i = some n := by
  unfold Graph.findNode at *
  rw [List.find?_append, h]
  rfl

theorem nodePres_addNode_of_notNode {g : Graph} {j : Nat} (hj : g.hasNode j = false)
    (nm im : String) : nodePres g (g.addNode j nm im) := by
  intro i n h
  unfold Graph.addNode
  rw [hj]
  simp only [Bool.false_eq_true, if_false]
  exact findNode_append_right g _ i n h

theorem nodePres_ensureNode (g : Graph) (j : Nat) : nodePres g (g.ensureNode j) := by
  unfold Graph.ensureNode
  by_cases hj : g.hasNode j = true
  · rw [if_pos hj]; exact nodePres_refl g
  · rw [if_neg hj]; exact nodePres_addNode_of_notNode (by simpa using hj) "" ""

theorem addEdge_nodes (g : Graph) (x y : Nat) (ms : List String) :
    (g.addEdge x y ms).nodes = ((g.ensureNode x).ensureNode y).nodes := by
  unfold Graph.addEdge
  simp only [hasEdge_ensureNode]
  split <;> rfl

theorem nodePres_addEdge (g : Graph) (x y : Nat) (ms : List String) :
    nodePres g (g.addEdge x y ms) := by
  have h1 := nodePres_trans (nodePres_ensureNode g x) (nodePres_ensureNode (g.ensureNode x) y)
  intro i n h
  rw [findNode_congr_nodes (addEdge_nodes g x y ms) i]
  exact h1 i n h

theorem nodePres_appendEdgeMovie (g : Graph) (x y : Nat) (t : String) :
    nodePres g (g.appendEdgeMovie x y t) := by
  intro i n h
  exact h

theorem nodePres_guardAddNode (g : Graph) (j : Nat) (nm im : String) :
    nodePres g (if g.hasNode j then g else g.addNode j nm im) := by
  by_cases hj : g.hasNode j = true
  · rw [if_pos hj]; exact nodePres_refl g
  · rw [if_neg hj]; exact nodePres_addNode_of_notNode (by simpa using hj) nm im

theorem nodePres_processCast (actor depth : Nat) (va : List Nat) (title : String)
    (st : Graph × List (Nat × Nat)) (cm : CastMember) :
    nodePres st.1 (processCast actor depth va title st cm).1 := by
  obtain ⟨g, queue⟩ := st
  unfold processCast
  simp only []
  refine nodePres_trans (nodePres_guardAddNode g cm.id cm.name (imageUrl cm.profile_path)) ?_
  set g1 := if g.hasNode cm.id then g else g.addNode cm.id cm.name (imageUrl cm.profile_path)
  by_cases hne : (actor != cm.id) = true
  · simp only [hne, if_true]
    by_cases he : g1.hasEdge actor cm.id = true
    · simp only [he, if_true]
      exact nodePres_appendEdgeMovie g1 actor cm.id title
    · simp only [he, Bool.false_eq_true, if_false]
      exact nodePres_addEdge g1 actor cm.id [title]
  · simp only [hne, Bool.false_eq_true, if_false]
    exact nodePres_refl g1

theorem nodePres_foldCast (actor depth : Nat) (va : List Nat) (title : String) :
    ∀ (cast : List CastMember) (st : Graph × List (Nat × Nat)),
      nodePres st.1 (cast.foldl (processCast actor depth va title) st).1
  | [], st => nodePres_refl st.1
  | cm :: rest, st => by
    rw [List.foldl_cons]
    exact nodePres_trans (nodePres_processCast actor depth va title st cm)
      (nodePres_foldCast actor depth va title rest _)

theorem nodePres_processMovie (p : Provider) (actor depth : Nat) (va : List Nat)
    (st : Graph × List Nat × List (Nat × Nat) × List Fetch) (movie : MovieCredit) :
    nodePres st.1 (processMovie p actor depth va st movie).1 := by
  obtain ⟨g, vm, queue, tr⟩ := st
  unfold processMovie
  by_cases h : vm.contains movie.id = true
  · simp only [h, if_true]
    exact nodePres_refl g
  · simp only [h, Bool.false_eq_true, if_false]
    exact nodePres_foldCast actor depth va movie.title ((p.movie_cast movie.id).take 10) (g, queue)

theorem nodePres_foldMovies (p : Provider) (actor depth : Nat) (va : List Nat) :
    ∀ (movies : List MovieCredit) (st : Graph × List Nat × List (Nat × Nat) × List Fetch),
      nodePres st.1 (movies.foldl (processMovie p actor depth va) st).1
  | [], st => nodePres_refl st.1
  | mv :: rest, st => by
    rw [List.foldl_cons]
    exact nodePres_trans (nodePres_processMovie p actor depth va st mv)
      (nodePres_foldMovies p actor depth va rest _)

theorem nodePres_expandActor (p : Provider) (m actor depth : Nat) (s : CrawlState) :
    nodePres s.g (expandActor p m actor depth s).g := by
  unfold expandActor
  exact nodePres_foldMovies p actor depth s.visitedActors _ (s.g, s.visitedMovies, s.queue, _)

theorem nodePres_crawlLoop (p : Provider) (D m : Nat) :
    ∀ (fuel : Nat) (s : CrawlState), nodePres s.g ((crawlLoop p D m fuel s).1).g
  | 0, s => nodePres_refl s.g
  | fuel + 1, s => by
    unfold crawlLoop
    rcases hq : s.queue with _ | ⟨⟨actor, depth⟩, rest⟩
    · exact nodePres_refl s.g
    · simp only []
      by_cases hv : s.visitedActors.contains actor = true
      · simp only [hv, if_true]
        exact nodePres_crawlLoop p D m fuel { s with queue := rest }
      · have hv' : s.visitedActors.contains actor = false := by simpa using hv
        simp only [hv', Bool.false_eq_true, if_false]
        by_cases hd : D ≤ depth
        · simp only [hd, if_true]
          exact nodePres_crawlLoop p D m fuel
            { s with visitedActors := actor :: s.visitedActors, queue := rest }
        · simp only [hd, if_false]
          exact nodePres_trans
            (nodePres_expandActor p m actor depth
              { s with visitedActors := actor :: s.visitedActors, queue := rest })
            (nodePres_crawlLoop p D m fuel
              (expandActor p m actor depth
                { s with visitedActors := actor :: s.visitedActors, queue := rest }))

theorem findNode_seed_initial (s : Nat) (nm im : String) :
    (Graph.empty.addNode s nm im).findNode s = some ⟨s, nm, im⟩ := by
  simp [Graph.addNode, Graph.empty, Graph.hasNode, Graph.findNode, List.find?_cons]

theorem hasNode_of_findNode {g : Graph} {i : Nat} {n : Node} (h : g.findNode i = some n) :
    g.hasNode i = true := by
  unfold Graph.findNode at h
  unfold Graph.hasNode
  have hm := List.mem_of_find?_eq_some h
  have hp := List.find?_some h
  exact List.any_eq_true.mpr ⟨n, hm, hp⟩

/-- Claim C10: every crawl's graph contains the seed actor as a node, with
the name and image derived from the recovered seed record, for every
provider, depth bound (including 0), movie cap, and fuel; when no credit
record identifies the seed, the record is the placeholder
`Actor <id>` with no profile image (hence empty image URL). -/
theorem C10_seed_node :
    (∀ (p : Provider) (start D m fuel : Nat),
      ((build_actor_graph p start D m fuel).1).g.findNode start =
        some ⟨start, (seedData p start).name, imageUrl (seedData p start).profile_path⟩ ∧
      ((build_actor_graph p start D m fuel).1).g.hasNode start = true) ∧
    (∀ (p : Provider) (start : Nat),
      findSeedData start (p.actor_movies start) = none →
        seedData p start = ⟨start, "Actor " ++ toString start, none⟩ ∧
        imageUrl (seedData p start).profile_path = "") := by
  constructor
  · intro p start D m fuel
    have hpres := nodePres_crawlLoop p D m fuel
      { g := Graph.empty.addNode start (seedData p start).name
          (imageUrl (seedData p start).profile_path),
        visitedActors := [], visitedMovies := [],
        queue := [(start, 0)], trace := [Fetch.credits start], expanded := [] }
    have hinit := findNode_seed_initial start (seedData p start).name
      (imageUrl (seedData p start).profile_path)
    have hfound := hpres start _ hinit
    exact ⟨hfound, hasNode_of_findNode hfound⟩
  · intro p start h
    unfold seedData
    rw [h]
    exact ⟨rfl, rfl⟩

/-- Witness for `C10_seed_node`: with a provider that returns no data, the
seed record cannot be recovered and the crawl still contains the seed node
with the placeholder name and empty image. -/
theorem C10_seed_node_witness :
    findSeedData 7 (emptyProvider.actor_movies 7) = none ∧
    seedData emptyProvider 7 = ⟨7, "Actor " ++ toString 7, none⟩ ∧
    imageUrl (seedData emptyProvider 7).profile_path = "" :=
  ⟨by decide, C10_seed_node.2 emptyProvider 7 (by decide)⟩

/-! Termination development (claim C6): each loop iteration strictly
decreases the `queueMeasure`, because an expansion at depth `d < D`
removes weight `(K+1)^(D-d)` and enqueues at most `K = 10 * m` entries of
weight `(K+1)^(D-d-1)` each. -/

theorem processCast_queue_extend (actor depth : Nat) (va : List Nat) (title : String)
    (st : Graph × List (Nat × Nat)) (cm : CastMember) :
    ∃ extra, (processCast actor depth va title st cm).2 = st.2 ++ extra ∧
      extra.length ≤ 1 ∧ ∀ e ∈ extra, e.2 = depth + 1 := by
  obtain ⟨g, queue⟩ := st
  unfold processCast
  by_cases h : cm.id ∈ va
  · exact ⟨[], by simp [h], by simp, by simp⟩
  · refine ⟨[(cm.id, depth + 1)], by simp [h], by simp, by simp⟩

theorem foldCast_queue_extend (actor depth : Nat) (va : List Nat) (title : String) :
    ∀ (cast : List CastMember) (st : Graph × List (Nat × Nat)),
      ∃ extra, (cast.foldl (processCast actor depth va title) st).2 = st.2 ++ extra ∧
        extra.length ≤ cast.length ∧ ∀ e ∈ extra, e.2 = depth + 1
  | [], st => ⟨[], by simp, by simp, by simp⟩
  | cm :: rest, st => by
    rw [List.foldl_cons]
    obtain ⟨e1, he1, hl1, hd1⟩ := processCast_queue_extend actor depth va title st cm
    obtain ⟨e2, he2, hl2, hd2⟩ :=
      foldCast_queue_extend actor depth va title rest (processCast actor depth va title st cm)
    refine ⟨e1 ++ e2, ?_, ?_, ?_⟩
    · rw [he2, he1, List.append_assoc]
    · simp only [List.length_append, List.length_cons]
      omega
    · intro e he
      rcases List.mem_append.mp he with h | h
      · exact hd1 e h
      · exact hd2 e h

theorem processMovie_queue_extend (p : Provider) (actor depth : Nat) (va : List Nat)
    (st : Graph × List Nat × List (Nat × Nat) × List Fetch) (movie : MovieCredit) :
    ∃ extra, (processMovie p actor depth va st movie).2.2.1 = st.2.2.1 ++ extra ∧
      extra.length ≤ 10 ∧ ∀ e ∈ extra, e.2 = depth + 1 := by
  obtain ⟨g, vm, queue, tr⟩ := st
  unfold processMovie
  by_cases h : movie.id ∈ vm
  · exact ⟨[], by simp [h], by simp, by simp⟩
  · obtain ⟨extra, he, hl, hd⟩ := foldCast_queue_extend actor depth va movie.title
      ((p.movie_cast movie.id).take 10) (g, queue)
    refine ⟨extra, ?_, ?_, hd⟩
    · simp [h, he]
    · have h10 : ((p.movie_cast movie.id).take 10).length ≤ 10 := List.length_take_le ..
      omega

theorem foldMovies_queue_extend (p : Provider) (actor depth : Nat) (va : List Nat) :
    ∀ (movies : List MovieCredit) (st : Graph × List Nat × List (Nat × Nat) × List Fetch),
      ∃ extra, (movies.foldl (processMovie p actor depth va) st).2.2.1 = st.2.2.1 ++ extra ∧
        extra.length ≤ 10 * movies.length ∧ ∀ e ∈ extra, e.2 = depth + 1
  | [], st => ⟨[], by simp, by simp, by simp⟩
  | mv :: rest, st => by
    rw [List.foldl_cons]
    obtain ⟨e1, he1, hl1, hd1⟩ := processMovie_queue_extend p actor depth va st mv
    obtain ⟨e2, he2, hl2, hd2⟩ :=
      foldMovies_queue_extend p actor depth va rest (processMovie p actor depth va st mv)
    refine ⟨e1 ++ e2, ?_, ?_, ?_⟩
    · rw [he2, he1, List.append_assoc]
    · simp only [List.length_append, List.length_cons]
      omega
    · intro e he
      rcases List.mem_append.mp he with h | h
      · exact hd1 e h
      · exact hd2 e h

theorem expandActor_queue_extend (p : Provider) (m actor depth : Nat) (s : CrawlState) :
    ∃ extra, (expandActor p m actor depth s).queue = s.queue ++ extra ∧
      extra.length ≤ 10 * m ∧ ∀ e ∈ extra, e.2 = depth + 1 := by
  unfold expandActor
  obtain ⟨extra, he, hl, hd⟩ := foldMovies_queue_extend p actor depth s.visitedActors
    ((sortPopDesc (p.actor_movies actor)).take m)
    (s.g, s.visitedMovies, s.queue, s.trace ++ [Fetch.credits actor])
  refine ⟨extra, he, ?_, hd⟩
  have hm : ((sortPopDesc (p.actor_movies actor)).take m).length ≤ m := List.length_take_le ..
  have := Nat.mul_le_mul_left 10 hm
  omega

theorem queueMeasure_nil (K D : Nat) : queueMeasure K D [] = 0 := rfl

theorem queueMeasure_cons (K D : Nat) (e : Nat × Nat) (q : List (Nat × Nat)) :
    queueMeasure K D (e :: q) = entryWeight K D e.2 + queueMeasure K D q := by
  simp [queueMeasure]

theorem queueMeasure_append (K D : Nat) (q1 q2 : List (Nat × Nat)) :
    queueMeasure K D (q1 ++ q2) = queueMeasure K D q1 + queueMeasure K D q2 := by
  simp [queueMeasure]

theorem entryWeight_pos (K D d : Nat) : 0 < entryWeight K D d :=
  Nat.pos_pow_of_pos _ (Nat.succ_pos K)

theorem queueMeasure_const_depth (K D d : Nat) :
    ∀ q : List (Nat × Nat), (∀ e ∈ q, e.2 = d) →
      queueMeasure K D q = q.length * entryWeight K D d
  | [], _ => by simp [queueMeasure]
  | e :: rest, h => by
    rw [queueMeasure_cons, queueMeasure_const_depth K D d rest (fun x hx => h x (List.mem_cons_of_mem e hx)),
      h e (List.mem_cons_self e rest)]
    simp [List.length_cons]
    ring

theorem queueMeasure_eq_zero {K D : Nat} :
    ∀ {q : List (Nat × Nat)}, queueMeasure K D q = 0 → q = []
  | [], _ => rfl
  | e :: rest, h => by
    rw [queueMeasure_cons] at h
    have := entryWeight_pos K D e.2
    omega

theorem crawlLoop_terminates (p : Provider) (D m : Nat) :
    ∀ (fuel : Nat) (s : CrawlState),
      queueMeasure (10 * m) D s.queue ≤ fuel →
      (crawlLoop p D m fuel s).2 = true
  | 0, s, h => by
    unfold crawlLoop
    have hnil : s.queue = [] := queueMeasure_eq_zero (Nat.le_zero.mp h)
    simp [hnil]
  | fuel + 1, s, h => by
    unfold crawlLoop
    rcases hq : s.queue with _ | ⟨⟨actor, depth⟩, rest⟩
    · rfl
    · rw [hq, queueMeasure_cons] at h
      have hw := entryWeight_pos (10 * m) D depth
      simp only []
      by_cases hv : s.visitedActors.contains actor = true
      · simp only [hv, if_true]
        refine crawlLoop_terminates p D m fuel { s with queue := rest } ?_
        show queueMeasure (10 * m) D rest ≤ fuel
        simp only [] at h
        omega
      · have hv' : s.visitedActors.contains actor = false := by simpa using hv
        simp only [hv', Bool.false_eq_true, if_false]
        by_cases hd : D ≤ depth
        · simp only [hd, if_true]
          refine crawlLoop_terminates p D m fuel
            { s with visitedActors := actor :: s.visitedActors, queue := rest } ?_
          show queueMeasure (10 * m) D rest ≤ fuel
          simp only [] at h
          omega
        · simp only [hd, if_false]
          obtain ⟨extra, he, hl, hdep⟩ := expandActor_queue_extend p m actor depth
            { s with visitedActors := actor :: s.visitedActors, queue := rest }
          refine crawlLoop_terminates p D m fuel _ ?_
          rw [he]
          show queueMeasure (10 * m) D (rest ++ extra) ≤ fuel
          rw [queueMeasure_append]
          have hme : queueMeasure (10 * m) D extra =
              extra.length * entryWeight (10 * m) D (depth + 1) :=
            queueMeasure_const_depth _ _ _ extra hdep
          have hkey : extra.length * entryWeight (10 * m) D (depth + 1) + 1 ≤
              entryWeight (10 * m) D depth := by
            have hDd : D - depth = (D - depth - 1) + 1 := by omega
            have hdd2 : D - (depth + 1) = D - depth - 1 := by omega
            unfold entryWeight
            rw [hDd, hdd2, pow_succ]
            have hmul := Nat.mul_le_mul_right ((10 * m + 1) ^ (D - depth - 1)) hl
            have hEpos : 0 < (10 * m + 1) ^ (D - depth - 1) :=
              Nat.pos_pow_of_pos _ (Nat.succ_pos _)
            have hexp : (10 * m + 1) ^ (D - depth - 1) * (10 * m + 1) =
                10 * m * (10 * m + 1) ^ (D - depth - 1) +
                (10 * m + 1) ^ (D - depth - 1) := by ring
            omega
          simp only [] at h
          omega

/-- Claim C6: for every provider (even one describing a cyclic or infinite
collaboration graph), every seed, every finite depth bound `D` and
movie cap `m`, the crawl loop empties its queue within `(10*m + 1)^D`
iterations: each actor is expanded at most once, every enqueued entry
sits one level deeper than its enqueuer, and the queue measure strictly
decreases every iteration. -/
theorem C6_crawl_terminates (p : Provider) (start D m : Nat) :
    (build_actor_graph p start D m ((10 * m + 1) ^ D)).2 = true := by
  unfold build_actor_graph
  refine crawlLoop_terminates p D m _ _ ?_
  show queueMeasure (10 * m) D [(start, 0)] ≤ (10 * m + 1) ^ D
  simp [queueMeasure, entryWeight]

/-! Merge development (claim C2): characterisation of `nx.compose`. -/

theorem bool_eq_of_iff {a b : Bool} (h : a = true ↔ b = true) : a = b := by
  cases a <;> cases b <;> simp_all

theorem edgeMatches_comm (f : Edge) (x y : Nat) :
    edgeMatches f x y = edgeMatches f y x := by
  unfold edgeMatches
  rw [Bool.or_comm]

theorem edgeMatches_of_matches {e : Edge} {x y : Nat} (h : edgeMatches e x y = true)
    (f : Edge) : edgeMatches f e.a e.b = edgeMatches f x y := by
  unfold edgeMatches at h
  rcases Bool.or_eq_true_iff.mp h with h1 | h1
  · obtain ⟨ha, hb⟩ := Bool.and_eq_true_iff.mp h1
    have hax : e.a = x := by simpa using ha
    have hby : e.b = y := by simpa using hb
    rw [hax, hby]
  · obtain ⟨ha, hb⟩ := Bool.and_eq_true_iff.mp h1
    have hay : e.a = y := by simpa using ha
    have hbx : e.b = x := by simpa using hb
    rw [hay, hbx]
    exact edgeMatches_comm f y x

theorem compose_node_id (h : Graph) (n : Node) :
    (match h.nodes.find? (fun (m : Node) => m.id == n.id) with
     | some m => m
     | none => n).id = n.id := by
  cases hf : h.nodes.find? (fun (m : Node) => m.id == n.id) with
  | none => rfl
  | some m =>
    have hm := List.find?_some hf
    simpa using hm

theorem find?_congr_pred {α : Type} (p q : α → Bool) (hpq : ∀ a, p a = q a) :
    ∀ l : List α, l.find? p = l.find? q
  | [] => rfl
  | x :: xs => by
    by_cases hx : p x = true
    · rw [List.find?_cons_of_pos _ hx, List.find?_cons_of_pos _ ((hpq x).symm.trans hx)]
    · rw [List.find?_cons_of_neg _ hx, List.find?_cons_of_neg _ (by rw [← hpq x]; exact hx),
        find?_congr_pred p q hpq xs]

theorem find?_filter_of_imp {α : Type} (p q : α → Bool)
    (hpq : ∀ a, p a = true → q a = true) :
    ∀ l : List α, (l.filter q).find? p = l.find? p
  | [] => rfl
  | x :: xs => by
    by_cases hqx : q x = true
    · rw [List.filter_cons_of_pos hqx]
      by_cases hpx : p x = true
      · rw [List.find?_cons_of_pos _ hpx, List.find?_cons_of_pos _ hpx]
      · rw [List.find?_cons_of_neg _ hpx, List.find?_cons_of_neg _ hpx,
          find?_filter_of_imp p q hpq xs]
    · rw [List.filter_cons_of_neg (by simpa using hqx)]
      have hpx : ¬ p x = true := fun hp => hqx (hpq x hp)
      rw [List.find?_cons_of_neg _ hpx, find?_filter_of_imp p q hpq xs]

theorem compose_hasNode (g h : Graph) (i : Nat) :
    (g.compose h).hasNode i = (g.hasNode i || h.hasNode i) := by
  apply bool_eq_of_iff
  unfold Graph.compose Graph.hasNode
  simp only [List.any_append, Bool.or_eq_true, List.any_eq_true, List.mem_map,
    List.mem_filter, beq_iff_eq]
  constructor
  · rintro (⟨x, ⟨n, hn, rfl⟩, hid⟩ | ⟨n, ⟨hn, hq⟩, hid⟩)
    · exact Or.inl ⟨n, hn, by rw [← compose_node_id h n]; exact hid⟩
    · exact Or.inr ⟨n, hn, hid⟩
  · rintro (⟨n, hn, hid⟩ | ⟨n, hn, hid⟩)
    · exact Or.inl ⟨_, ⟨n, hn, rfl⟩, (compose_node_id h n).trans hid⟩
    · by_cases hgi : ∃ x ∈ g.nodes, x.id = i
      · obtain ⟨x, hx, hxid⟩ := hgi
        exact Or.inl ⟨_, ⟨x, hx, rfl⟩, (compose_node_id h x).trans hxid⟩
      · refine Or.inr ⟨n, ⟨hn, ?_⟩, hid⟩
        have hany : g.nodes.any (fun x => x.id == n.id) = false := by
          rw [List.any_eq_false]
          intro x hx
          simp only [beq_iff_eq]
          intro hcontra
          exact hgi ⟨x, hx, hcontra.symm ▸ hid⟩
        simp [hany]

theorem compose_findEdge (g h : Graph) (x y : Nat) :
    (g.compose h).findEdge x y = (h.findEdge x y).or (g.findEdge x y) := by
  unfold Graph.compose Graph.findEdge
  simp only [List.find?_append]
  rw [find?_map_of_pred (fun e => edgeMatches e x y)
    (fun e => match h.edges.find? (fun f => edgeMatches f e.a e.b) with
      | some f => { e with movies := f.movies }
      | none => e)
    (fun e => by
      show edgeMatches (match h.edges.find? (fun f => edgeMatches f e.a e.b) with
        | some f => { e with movies := f.movies }
        | none => e) x y = edgeMatches e x y
      cases h.edges.find? (fun f => edgeMatches f e.a e.b) <;> rfl)]
  cases hg : g.edges.find? (fun e => edgeMatches e x y) with
  | some e =>
    have he := List.find?_some hg
    have hinner := find?_congr_pred
      (fun f => edgeMatches f e.a e.b) (fun f => edgeMatches f x y)
      (edgeMatches_of_matches he) h.edges
    simp only [Option.map_some']
    rw [hinner]
    cases hh : h.edges.find? (fun f => edgeMatches f x y) with
    | some f => simp
    | none => simp
  | none =>
    have hnone := List.find?_eq_none.mp hg
    rw [find?_filter_of_imp (fun f => edgeMatches f x y)
      (fun f => !(g.edges.any (fun e => edgeMatches e f.a f.b)))
      (fun f hf => by
        have hall : g.edges.any (fun e => edgeMatches e f.a f.b) = false := by
          rw [List.any_eq_false]
          intro e hel
          rw [edgeMatches_of_matches hf e]
          exact hnone e hel
        show (!(g.edges.any (fun e => edgeMatches e f.a f.b))) = true
        rw [hall]
        rfl)]
    cases hh : h.edges.find? (fun e => edgeMatches e x y) <;> simp

/-- Claim C2, amended: composing two graphs unions the node-id sets and
the edge sets; for an edge present in both graphs, the merged edge's title
list is the second graph's list (replacement, `nx.compose` attribute
semantics), not the concatenation. -/
theorem C2_compose_union_replace :
    (∀ (g h : Graph) (i : Nat),
      (g.compose h).hasNode i = (g.hasNode i || h.hasNode i)) ∧
    (∀ (g h : Graph) (x y : Nat),
      (g.compose h).hasEdge x y = (g.hasEdge x y || h.hasEdge x y)) ∧
    (∀ (g h : Graph) (x y : Nat),
      (g.compose h).findEdge x y = (h.findEdge x y).or (g.findEdge x y)) := by
  refine ⟨compose_hasNode, ?_, compose_findEdge⟩
  intro g h x y
  unfold Graph.hasEdge
  rw [compose_findEdge]
  cases h.findEdge x y <;> cases g.findEdge x y <;> simp

/-! Edge-uniqueness development (claim C3): every produced graph keeps at
most one edge per unordered node pair. -/

theorem edgeMatches_symm_pair (e f : Edge) :
    edgeMatches e f.a f.b = edgeMatches f e.a e.b := by
  apply bool_eq_of_iff
  unfold edgeMatches
  simp only [Bool.or_eq_true, Bool.and_eq_true, beq_iff_eq]
  constructor
  · rintro (⟨h1, h2⟩ | ⟨h1, h2⟩)
    · exact Or.inl ⟨h1.symm, h2.symm⟩
    · exact Or.inr ⟨h2.symm, h1.symm⟩
  · rintro (⟨h1, h2⟩ | ⟨h1, h2⟩)
    · exact Or.inl ⟨h1.symm, h2.symm⟩
    · exact Or.inr ⟨h2.symm, h1.symm⟩

theorem edgesUnique_congr {g h : Graph} (he : g.edges = h.edges)
    (hu : EdgesUnique g) : EdgesUnique h := by
  unfold EdgesUnique at *
  rw [← he]
  exact hu

theorem edgesUnique_map_movies (g : Graph) (F : Edge → Edge)
    (ha : ∀ e, (F e).a = e.a) (hb : ∀ e, (F e).b = e.b)
    (hu : EdgesUnique g) : EdgesUnique { g with edges := g.edges.map F } := by
  unfold EdgesUnique at *
  rw [List.pairwise_map]
  refine hu.imp ?_
  intro e f hef
  show edgeMatches (F f) (F e).a (F e).b = false
  rw [ha e, hb e]
  have hm : edgeMatches (F f) e.a e.b = edgeMatches f e.a e.b := by
    apply bool_eq_of_iff
    unfold edgeMatches
    rw [ha f, hb f]
  rw [hm]
  exact hef

theorem edgesUnique_empty : EdgesUnique Graph.empty := List.Pairwise.nil

theorem edgesUnique_addNode (g : Graph) (i : Nat) (nm im : String)
    (hu : EdgesUnique g) : EdgesUnique (g.addNode i nm im) :=
  edgesUnique_congr (addNode_edges g i nm im).symm hu

theorem edgesUnique_appendEdgeMovie (g : Graph) (x y : Nat) (t : String)
    (hu : EdgesUnique g) : EdgesUnique (g.appendEdgeMovie x y t) := by
  unfold Graph.appendEdgeMovie
  refine edgesUnique_map_movies g _ ?_ ?_ hu
  · intro e; split <;> rfl
  · intro e; split <;> rfl

theorem edgesUnique_addEdge (g : Graph) (x y : Nat) (ms : List String)
    (hu : EdgesUnique g) : EdgesUnique (g.addEdge x y ms) := by
  have he := addEdge_edges g x y ms
  by_cases h : g.hasEdge x y = true
  · rw [if_pos h] at he
    exact edgesUnique_congr he.symm (edgesUnique_map_movies g
      (fun e => if edgeMatches e x y then { e with movies := ms } else e)
      (fun e => by
        show (if edgeMatches e x y then ({ e with movies := ms } : Edge) else e).a = e.a
        split <;> rfl)
      (fun e => by
        show (if edgeMatches e x y then ({ e with movies := ms } : Edge) else e).b = e.b
        split <;> rfl) hu)
  · have hfalse : g.hasEdge x y = false := by simpa using h
    rw [hfalse] at he
    simp only [Bool.false_eq_true, if_false] at he
    have hnone := hasEdge_false_find? hfalse
    have hall := List.find?_eq_none.mp hnone
    unfold EdgesUnique at *
    rw [he, List.pairwise_append]
    refine ⟨hu, List.pairwise_singleton .., ?_⟩
    intro e hel f hf
    have hfeq : f = ⟨x, y, ms⟩ := by simpa using hf
    subst hfeq
    show edgeMatches ⟨x, y, ms⟩ e.a e.b = false
    rw [edgeMatches_symm_pair]
    show edgeMatches e x y = false
    have := hall e hel
    simpa using this

theorem compose_edge_map_a (h : Graph) (e : Edge) :
    (match h.edges.find? (fun (f : Edge) => edgeMatches f e.a e.b) with
     | some f => { e with movies := f.movies }
     | none => e).a = e.a := by
  cases h.edges.find? (fun (f : Edge) => edgeMatches f e.a e.b) <;> rfl

theorem compose_edge_map_b (h : Graph) (e : Edge) :
    (match h.edges.find? (fun (f : Edge) => edgeMatches f e.a e.b) with
     | some f => { e with movies := f.movies }
     | none => e).b = e.b := by
  cases h.edges.find? (fun (f : Edge) => edgeMatches f e.a e.b) <;> rfl

theorem edgesUnique_compose {g h : Graph} (hg : EdgesUnique g) (hh : EdgesUnique h) :
    EdgesUnique (g.compose h) := by
  unfold EdgesUnique Graph.compose at *
  simp only []
  rw [List.pairwise_append]
  refine ⟨?_, hh.sublist (List.filter_sublist _), ?_⟩
  · rw [List.pairwise_map]
    refine hg.imp ?_
    intro e f hef
    show edgeMatches
      (match h.edges.find? (fun x => edgeMatches x f.a f.b) with
       | some x => { f with movies := x.movies }
       | none => f)
      (match h.edges.find? (fun x => edgeMatches x e.a e.b) with
       | some x => { e with movies := x.movies }
       | none => e).a
      (match h.edges.find? (fun x => edgeMatches x e.a e.b) with
       | some x => { e with movies := x.movies }
       | none => e).b = false
    rw [compose_edge_map_a, compose_edge_map_b]
    have hm : edgeMatches
        (match h.edges.find? (fun x => edgeMatches x f.a f.b) with
         | some x => { f with movies := x.movies }
         | none => f) e.a e.b = edgeMatches f e.a e.b := by
      cases h.edges.find? (fun x => edgeMatches x f.a f.b) <;> rfl
    rw [hm]
    exact hef
  · intro e' he' f hf
    obtain ⟨e, hel, rfl⟩ := List.mem_map.mp he'
    obtain ⟨hfh, hq⟩ := List.mem_filter.mp hf
    rw [compose_edge_map_a, compose_edge_map_b]
    have hany : g.edges.any (fun x => edgeMatches x f.a f.b) = false := by
      simpa using hq
    have := List.any_eq_false.mp hany e hel
    rw [edgeMatches_symm_pair]
    simpa using this

theorem edgesUnique_ensureNode (g : Graph) (i : Nat) (hu : EdgesUnique g) :
    EdgesUnique (g.ensureNode i) :=
  edgesUnique_congr (ensureNode_edges g i).symm hu

theorem edgesUnique_processCast (actor depth : Nat) (va : List Nat) (title : String)
    (st : Graph × List (Nat × Nat)) (cm : CastMember) (hu : EdgesUnique st.1) :
    EdgesUnique (processCast actor depth va title st cm).1 := by
  obtain ⟨g, queue⟩ := st
  unfold processCast
  simp only []
  set g1 := if g.hasNode cm.id then g
      else g.addNode cm.id cm.name (imageUrl cm.profile_path) with hg1
  have h1 : EdgesUnique g1 := by
    rw [hg1]
    split
    · exact hu
    · exact edgesUnique_addNode _ _ _ _ hu
  by_cases hne : (actor != cm.id) = true
  · simp only [hne, if_true]
    by_cases he : g1.hasEdge actor cm.id = true
    · simp only [he, if_true]
      exact edgesUnique_appendEdgeMovie _ _ _ _ h1
    · simp only [he, Bool.false_eq_true, if_false]
      exact edgesUnique_addEdge _ _ _ _ h1
  · simp only [hne, Bool.false_eq_true, if_false]
    exact h1

theorem edgesUnique_foldCast (actor depth : Nat) (va : List Nat) (title : String) :
    ∀ (cast : List CastMember) (st : Graph × List (Nat × Nat)),
      EdgesUnique st.1 →
      EdgesUnique (cast.foldl (processCast actor depth va title) st).1
  | [], _, hu => hu
  | cm :: rest, st, hu => by
    rw [List.foldl_cons]
    exact edgesUnique_foldCast actor depth va title rest _
      (edgesUnique_processCast actor depth va title st cm hu)

theorem edgesUnique_processMovie (p : Provider) (actor depth : Nat) (va : List Nat)
    (st : Graph × List Nat × List (Nat × Nat) × List Fetch) (movie : MovieCredit)
    (hu : EdgesUnique st.1) :
    EdgesUnique (processMovie p actor depth va st movie).1 := by
  obtain ⟨g, vm, queue, tr⟩ := st
  unfold processMovie
  by_cases h : movie.id ∈ vm
  · simpa [h] using hu
  · have hf := edgesUnique_foldCast actor depth va movie.title
      ((p.movie_cast movie.id).take 10) (g, queue) hu
    simpa [h] using hf

theorem edgesUnique_foldMovies (p : Provider) (actor depth : Nat) (va : List Nat) :
    ∀ (movies : List MovieCredit) (st : Graph × List Nat × List (Nat × Nat) × List Fetch),
      EdgesUnique st.1 →
      EdgesUnique (movies.foldl (processMovie p actor depth va) st).1
  | [], _, hu => hu
  | mv :: rest, st, hu => by
    rw [List.foldl_cons]
    exact edgesUnique_foldMovies p actor depth va rest _
      (edgesUnique_processMovie p actor depth va st mv hu)

theorem edgesUnique_expandActor (p : Provider) (m actor depth : Nat) (s : CrawlState)
    (hu : EdgesUnique s.g) : EdgesUnique (expandActor p m actor depth s).g := by
  unfold expandActor
  exact edgesUnique_foldMovies p actor depth s.visitedActors _
    (s.g, s.visitedMovies, s.queue, s.trace ++ [Fetch.credits actor]) hu

theorem edgesUnique_crawlLoop (p : Provider) (D m : Nat) :
    ∀ (fuel : Nat) (s : CrawlState), EdgesUnique s.g →
      EdgesUnique ((crawlLoop p D m fuel s).1).g
  | 0, _, hu => hu
  | fuel + 1, s, hu => by
    unfold crawlLoop
    rcases hq : s.queue with _ | ⟨⟨actor, depth⟩, rest⟩
    · exact hu
    · simp only []
      by_cases hv : s.visitedActors.contains actor = true
      · simp only [hv, if_true]
        exact edgesUnique_crawlLoop p D m fuel { s with queue := rest } hu
      · have hv' : s.visitedActors.contains actor = false := by simpa using hv
        simp only [hv', Bool.false_eq_true, if_false]
        by_cases hd : D ≤ depth
        · simp only [hd, if_true]
          exact edgesUnique_crawlLoop p D m fuel
            { s with visitedActors := actor :: s.visitedActors, queue := rest } hu
        · simp only [hd, if_false]
          exact edgesUnique_crawlLoop p D m fuel _
            (edgesUnique_expandActor p m actor depth
              { s with visitedActors := actor :: s.visitedActors, queue := rest } hu)

theorem edgesUnique_build (p : Provider) (start D m fuel : Nat) :
    EdgesUnique ((build_actor_graph p start D m fuel).1).g := by
  unfold build_actor_graph
  exact edgesUnique_crawlLoop p D m fuel _
    (edgesUnique_addNode Graph.empty start _ _ edgesUnique_empty)

theorem edgesUnique_bridgeMovies (p : Provider) (a1 a2 : Nat) :
    ∀ (common : List Nat) (st : Graph × List Fetch × Nat), EdgesUnique st.1 →
      EdgesUnique (bridgeMovies p a1 a2 common st).1
  | [], _, hu => hu
  | mid :: rest, ⟨g, tr, c⟩, hu => by
    unfold bridgeMovies
    simp only []
    split
    · exact edgesUnique_bridgeMovies p a1 a2 rest _ hu
    · exact edgesUnique_bridgeMovies p a1 a2 rest _ (edgesUnique_addEdge _ _ _ _ hu)

theorem edgesUnique_bridgeInner (p : Provider) (a1 : Nat) (mids1 : List Nat) :
    ∀ (a2s : List Nat) (st : Graph × List Fetch × Nat), EdgesUnique st.1 →
      EdgesUnique (bridgeInner p a1 mids1 a2s st).1
  | [], _, hu => hu
  | a2 :: rest, ⟨g, tr, c⟩, hu => by
    unfold bridgeInner
    simp only []
    split
    · exact edgesUnique_bridgeMovies p a1 a2 _ _ hu
    · exact edgesUnique_bridgeInner p a1 mids1 rest _
        (edgesUnique_bridgeMovies p a1 a2 _ _ hu)

theorem edgesUnique_bridgeOuter (p : Provider) (n2s : List Nat) :
    ∀ (n1s : List Nat) (st : Graph × List Fetch × Nat), EdgesUnique st.1 →
      EdgesUnique (bridgeOuter p n2s n1s st).1
  | [], _, hu => hu
  | a1 :: rest, ⟨g, tr, c⟩, hu => by
    unfold bridgeOuter
    simp only []
    split
    · exact edgesUnique_bridgeInner p a1 _ n2s _ hu
    · exact edgesUnique_bridgeOuter p n2s rest _
        (edgesUnique_bridgeInner p a1 _ n2s _ hu)

theorem edgesUnique_connection (p : Provider) (a1 a2 fuel : Nat) :
    EdgesUnique (find_actor_connection p a1 a2 fuel).g := by
  unfold find_actor_connection
  by_cases h : ((build_actor_graph p a1 2 5 fuel).1).g.hasNode a2 = true
  · simp only [h, if_true]
    exact edgesUnique_build p a1 2 5 fuel
  · have h' : ((build_actor_graph p a1 2 5 fuel).1).g.hasNode a2 = false := by simpa using h
    simp only [h', Bool.false_eq_true, if_false]
    exact edgesUnique_bridgeOuter p _ _ _
      (edgesUnique_compose (edgesUnique_build p a1 2 5 fuel) (edgesUnique_build p a2 2 5 fuel))

theorem findEdge_appendEdgeMovie (g : Graph) (x y : Nat) (t : String) :
    (g.appendEdgeMovie x y t).findEdge x y =
      (g.findEdge x y).map (fun l => l ++ [t]) := by
  unfold Graph.appendEdgeMovie Graph.findEdge
  simp only []
  rw [find?_map_of_pred (fun e => edgeMatches e x y)
    (fun e => if edgeMatches e x y then { e with movies := e.movies ++ [t] } else e)
    (fun e => by
      show edgeMatches
        (if edgeMatches e x y then ({ e with movies := e.movies ++ [t] } : Edge) else e)
        x y = edgeMatches e x y
      split <;> rfl)]
  cases hg : g.edges.find? (fun e => edgeMatches e x y) with
  | none => rfl
  | some e =>
    have hp := List.find?_some hg
    simp [hp]

/-- Claim C3, amended: every graph built by the crawler or by
`find_actor_connection` keeps at most one edge per unordered node pair; in
the crawler a repeated discovery for an existing edge appends the title to
that edge's list; the bridging phase, however, drops a movie found for a
pair that already has an edge (the `has_edge` guard makes the whole
movie fold a no-op on the graph and the counter) instead of appending
it — no parallel edge is created anywhere. -/
theorem C3_one_edge_per_pair :
    (∀ (p : Provider) (start D m fuel : Nat),
      EdgesUnique ((build_actor_graph p start D m fuel).1).g) ∧
    (∀ (p : Provider) (a1 a2 fuel : Nat),
      EdgesUnique (find_actor_connection p a1 a2 fuel).g) ∧
    (∀ (actor depth : Nat) (va : List Nat) (title : String)
        (g : Graph) (queue : List (Nat × Nat)) (cm : CastMember) (l : List String),
      actor ≠ cm.id → g.findEdge actor cm.id = some l →
      (processCast actor depth va title (g, queue) cm).1.findEdge actor cm.id =
        some (l ++ [title])) ∧
    (∀ (p : Provider) (a1 a2 : Nat) (common : List Nat) (g : Graph)
        (tr : List Fetch) (c : Nat),
      g.hasEdge a1 a2 = true →
      ∃ tr', bridgeMovies p a1 a2 common (g, tr, c) = (g, tr', c)) := by
  refine ⟨edgesUnique_build, edgesUnique_connection, ?_, bridgeMovies_of_hasEdge⟩
  intro actor depth va title g queue cm l hne hfe
  unfold processCast
  simp only []
  set g1 := if g.hasNode cm.id then g
      else g.addNode cm.id cm.name (imageUrl cm.profile_path) with hg1
  have hedges : g1.edges = g.edges := by
    rw [hg1]
    split
    · rfl
    · exact addNode_edges ..
  have hfe1 : g1.findEdge actor cm.id = some l := by
    rw [findEdge_congr_edges hedges]
    exact hfe
  have hne' : (actor != cm.id) = true := by simpa using hne
  have hhe : g1.hasEdge actor cm.id = true := by
    unfold Graph.hasEdge
    rw [hfe1]
    rfl
  simp only [hne', if_true, hhe]
  rw [findEdge_appendEdgeMovie, hfe1]
  rfl

/-- Witness for `C3_one_edge_per_pair`: a repeated crawl discovery appends
to the existing edge `{1,2}` of `gLeft`, and a bridge movie for the
already-linked pair `{1,2}` leaves the graph and the counter unchanged. -/
theorem C3_one_edge_per_pair_witness :
    ((1 : Nat) ≠ (member 2 "Y").id ∧
     gLeft.findEdge 1 (member 2 "Y").id = some ["A"] ∧
     (processCast 1 0 [] "T" (gLeft, []) (member 2 "Y")).1.findEdge 1 (member 2 "Y").id =
       some (["A"] ++ ["T"])) ∧
    (gLeft.hasEdge 1 2 = true ∧
     ∃ tr', bridgeMovies emptyProvider 1 2 [300] (gLeft, [], 0) = (gLeft, tr', 0)) :=
  ⟨⟨by decide, by decide,
    C3_one_edge_per_pair.2.2.1 1 0 [] "T" gLeft [] (member 2 "Y") ["A"] (by decide) (by decide)⟩,
   ⟨by decide,
    C3_one_edge_per_pair.2.2.2 emptyProvider 1 2 [300] gLeft [] 0 (by decide)⟩⟩

/-! Scenario development (claim C1): symbolic evaluation of the depth-1
crawl over `scenarioProvider`. -/

theorem crawlLoop_nil (p : Provider) (D m : Nat) (fuel : Nat) (s : CrawlState)
    (h : s.queue = []) : crawlLoop p D m fuel s = (s, true) := by
  cases fuel with
  | zero => unfold crawlLoop; simp [h]
  | succ n =>
    unfold crawlLoop
    rw [h]

theorem scenario_crawl_run (X Y Z : Nat) (k : Nat)
    (hXY : X ≠ Y) (hXZ : X ≠ Z) (hYZ : Y ≠ Z) :
    build_actor_graph (scenarioProvider X Y Z) X 1 5 (k + 3) =
    ({ g := ⟨[⟨X, "Actor " ++ toString X, ""⟩, ⟨Y, "NY", ""⟩, ⟨Z, "NZ", ""⟩],
             [⟨X, Y, ["M"]⟩, ⟨X, Z, ["M"]⟩]⟩,
       visitedActors := [Z, Y, X],
       visitedMovies := [100],
       queue := [],
       trace := [Fetch.credits X, Fetch.credits X, Fetch.cast 100],
       expanded := [(X, 0)] }, true) := by
  have hYX : Y ≠ X := Ne.symm hXY
  have hZX : Z ≠ X := Ne.symm hXZ
  have hZY : Z ≠ Y := Ne.symm hYZ
  unfold build_actor_graph
  have hseed : seedData (scenarioProvider X Y Z) X = ⟨X, "Actor " ++ toString X, none⟩ := by
    unfold seedData findSeedData
    simp [scenarioProvider, credit]
  rw [hseed]
  simp only [crawlLoop, expandActor, processMovie, processCast, scenarioProvider,
    sortPopDesc, insertPopDesc, credit, member, imageUrl, seedData,
    Graph.addNode, Graph.hasNode, Graph.addEdge, Graph.hasEdge, Graph.findEdge,
    Graph.ensureNode, Graph.appendEdgeMovie, Graph.empty, edgeMatches,
    List.foldl_cons, List.foldl_nil, List.take, List.contains_nil, List.contains_cons,
    beq_self_eq_true, bne_self_eq_false, beq_iff_eq, bne_iff_ne, decide_eq_true_eq,
    List.find?_nil, List.find?_cons_of_pos, List.find?_cons_of_neg,
    List.any_nil, List.any_cons, List.map_cons, List.map_nil,
    List.nil_append, List.append_nil, List.cons_append, List.singleton_append,
    Option.map_some', Option.map_none', Option.isSome_some, Option.isSome_none,
    Nat.le_zero, Nat.zero_add, Nat.le_refl, one_ne_zero, ne_eq, not_false_eq_true,
    not_true_eq_false, Bool.or_false, Bool.false_or, Bool.and_true, Bool.true_and,
    Bool.or_true, Bool.true_or, Bool.and_false, Bool.false_and,
    Bool.or_eq_true, Bool.and_eq_true, or_self, or_false, false_or, and_self,
    and_true, true_and, ite_false, ite_true,
    hXY, hXZ, hYZ, hYX, hZX, hZY, if_true, if_false, Bool.false_eq_true]
  exact crawlLoop_nil _ _ _ _ _ rfl

/-- Claim C1, amended: for a seed actor `X` whose single retained movie
`M` (id 100, title `"M"`) has cast `[X, Y, Z]` (ids pairwise distinct),
the depth-1 crawl from `X` yields exactly the three nodes `X, Y, Z` and
exactly the two edges `(X,Y)` and `(X,Z)`, each labeled `["M"]`; no edge
`(Y,Z)` is created, because the crawler only links the expanded actor to
each cast member. -/
theorem C1_scenario_crawl (X Y Z fuel : Nat)
    (hXY : X ≠ Y) (hXZ : X ≠ Z) (hYZ : Y ≠ Z) (hfuel : 3 ≤ fuel) :
    ((build_actor_graph (scenarioProvider X Y Z) X 1 5 fuel).1.g.nodes.map (fun n => n.id)
        = [X, Y, Z]) ∧
    ((build_actor_graph (scenarioProvider X Y Z) X 1 5 fuel).1.g.edges
        = [⟨X, Y, ["M"]⟩, ⟨X, Z, ["M"]⟩]) ∧
    (build_actor_graph (scenarioProvider X Y Z) X 1 5 fuel).1.g.hasEdge Y Z = false := by
  obtain ⟨k, rfl⟩ : ∃ k, fuel = k + 3 := ⟨fuel - 3, by omega⟩
  rw [scenario_crawl_run X Y Z k hXY hXZ hYZ]
  refine ⟨by simp, rfl, ?_⟩
  simp [Graph.hasEdge, Graph.findEdge, edgeMatches, List.find?_cons,
    Ne.symm hXY, Ne.symm hXZ, hXY, hXZ, hYZ, Ne.symm hYZ]

/-- Witness for `C1_scenario_crawl` at the concrete ids 1, 2, 3. -/
theorem C1_scenario_crawl_witness :
    ((1 : Nat) ≠ 2 ∧ (1 : Nat) ≠ 3 ∧ (2 : Nat) ≠ 3 ∧ 3 ≤ 10) ∧
    (((build_actor_graph (scenarioProvider 1 2 3) 1 1 5 10).1.g.nodes.map (fun n => n.id)
        = [1, 2, 3]) ∧
     ((build_actor_graph (scenarioProvider 1 2 3) 1 1 5 10).1.g.edges
        = [⟨1, 2, ["M"]⟩, ⟨1, 3, ["M"]⟩]) ∧
     (build_actor_graph (scenarioProvider 1 2 3) 1 1 5 10).1.g.hasEdge 2 3 = false) :=
  ⟨⟨by decide, by decide, by decide, by decide⟩,
   C1_scenario_crawl 1 2 3 10 (by decide) (by decide) (by decide) (by decide)⟩

/-! Shortest-path development (claim C7): soundness and minimality of the
BFS model. -/

theorem findLeastAux_spec (pred : Nat → Bool) :
    ∀ (fuel k j : Nat), findLeastAux pred fuel k = some j →
      pred j = true ∧ k ≤ j ∧ ∀ i, k ≤ i → i < j → pred i = false
  | 0, k, j, h => by simp [findLeastAux] at h
  | fuel + 1, k, j, h => by
    unfold findLeastAux at h
    by_cases hp : pred k = true
    · rw [if_pos hp] at h
      cases h
      exact ⟨hp, le_refl k, fun i h1 h2 => absurd (lt_of_le_of_lt h1 h2) (lt_irrefl k)⟩
    · rw [if_neg hp] at h
      obtain ⟨hj, hk, hmin⟩ := findLeastAux_spec pred fuel (k + 1) j h
      refine ⟨hj, by omega, fun i h1 h2 => ?_⟩
      by_cases hik : i = k
      · subst hik
        simpa using hp
      · exact hmin i (by omega) h2

theorem findLeastAux_complete (pred : Nat → Bool) :
    ∀ (fuel k j : Nat), k ≤ j → j < k + fuel → pred j = true →
      ∃ r, findLeastAux pred fuel k = some r
  | 0, k, j, h1, h2, _ => absurd h2 (by omega)
  | fuel + 1, k, j, h1, h2, hp => by
    unfold findLeastAux
    by_cases hpk : pred k = true
    · exact ⟨k, by rw [if_pos hpk]⟩
    · rw [if_neg hpk]
      have hkj : k ≠ j := fun he => hpk (he ▸ hp)
      exact findLeastAux_complete pred fuel (k + 1) j (by omega) (by omega) hp

theorem mem_dedup_ids_iff (g : Graph) (v : Nat) :
    v ∈ (g.nodes.map (fun n => n.id)).dedup ↔ g.hasNode v = true := by
  rw [List.mem_dedup]
  unfold Graph.hasNode
  rw [List.any_eq_true]
  simp only [List.mem_map, beq_iff_eq]

theorem mem_stepSet_of_mem {g : Graph} {s : List Nat} {v : Nat} (h : v ∈ s) :
    v ∈ stepSet g s := by
  unfold stepSet
  exact List.mem_append_left _ h

theorem mem_stepSet_iff {g : Graph} {s : List Nat} {v : Nat} :
    v ∈ stepSet g s ↔
      v ∈ s ∨ (g.hasNode v = true ∧ v ∉ s ∧ ∃ u ∈ s, g.hasEdge u v = true) := by
  unfold stepSet
  rw [List.mem_append, List.mem_filter]
  constructor
  · rintro (h | ⟨hmem, hpred⟩)
    · exact Or.inl h
    · obtain ⟨hnotin, hadj⟩ := Bool.and_eq_true_iff.mp hpred
      refine Or.inr ⟨(mem_dedup_ids_iff g v).mp hmem, ?_, ?_⟩
      · intro hvs
        simp [hvs] at hnotin
      · obtain ⟨u, hu, he⟩ := List.any_eq_true.mp hadj
        exact ⟨u, hu, he⟩
  · rintro (h | ⟨hnode, hnotin, u, hu, he⟩)
    · exact Or.inl h
    · refine Or.inr ⟨(mem_dedup_ids_iff g v).mpr hnode, ?_⟩
      rw [Bool.and_eq_true_iff]
      refine ⟨by simp [hnotin], List.any_eq_true.mpr ⟨u, hu, he⟩⟩

theorem reachK_mono (g : Graph) (a : Nat) :
    ∀ (k j : Nat), k ≤ j → ∀ v, v ∈ reachK g a k → v ∈ reachK g a j := by
  intro k j hkj
  induction j with
  | zero =>
    have : k = 0 := by omega
    subst this
    exact fun v h => h
  | succ n ih =>
    intro v hv
    by_cases hk : k = n + 1
    · subst hk
      exact hv
    · have hkn : k ≤ n := by omega
      exact mem_stepSet_of_mem (ih hkn v hv)

theorem hasNode_of_hasEdge {g : Graph} (hwf : g.wf = true) {u v : Nat}
    (he : g.hasEdge u v = true) : g.hasNode u = true ∧ g.hasNode v = true := by
  unfold Graph.hasEdge Graph.findEdge at he
  obtain ⟨e, hfind⟩ : ∃ e, g.edges.find? (fun e => edgeMatches e u v) = some e := by
    apply Option.isSome_iff_exists.mp
    simpa [Option.isSome_map'] using he
  have hmem := List.mem_of_find?_eq_some hfind
  have hmatch := List.find?_some hfind
  unfold Graph.wf at hwf
  have hall := List.all_eq_true.mp hwf e hmem
  obtain ⟨ha, hb⟩ := Bool.and_eq_true_iff.mp hall
  unfold edgeMatches at hmatch
  rcases Bool.or_eq_true_iff.mp hmatch with h1 | h1
  · obtain ⟨h2, h3⟩ := Bool.and_eq_true_iff.mp h1
    have hea : e.a = u := by simpa using h2
    have heb : e.b = v := by simpa using h3
    exact ⟨hea ▸ ha, heb ▸ hb⟩
  · obtain ⟨h2, h3⟩ := Bool.and_eq_true_iff.mp h1
    have hea : e.a = v := by simpa using h2
    have heb : e.b = u := by simpa using h3
    exact ⟨heb ▸ hb, hea ▸ ha⟩

theorem mem_stepSet_of_adj {g : Graph} (hwf : g.wf = true) {s : List Nat} {u v : Nat}
    (hu : u ∈ s) (he : g.hasEdge u v = true) : v ∈ stepSet g s := by
  by_cases hv : v ∈ s
  · exact mem_stepSet_of_mem hv
  · exact mem_stepSet_iff.mpr
      (Or.inr ⟨(hasNode_of_hasEdge hwf he).2, hv, u, hu, he⟩)

theorem reachK_nodup (g : Graph) (a : Nat) : ∀ k, (reachK g a k).Nodup
  | 0 => List.nodup_singleton a
  | k + 1 => by
    show (stepSet g (reachK g a k)).Nodup
    unfold stepSet
    refine List.Nodup.append (reachK_nodup g a k) ?_ ?_
    · exact (List.nodup_dedup _).filter _
    · intro v hv hvf
      obtain ⟨_, hpred⟩ := List.mem_filter.mp hvf
      obtain ⟨hnotin, _⟩ := Bool.and_eq_true_iff.mp hpred
      simp [hv] at hnotin

theorem reachK_subset (g : Graph) (a : Nat) :
    ∀ k, ∀ v ∈ reachK g a k, v ∈ a :: (g.nodes.map (fun n => n.id)).dedup
  | 0, v, hv => by
    have hva : v = a := by simpa [reachK] using hv
    rw [hva]
    exact List.mem_cons_self a _
  | k + 1, v, hv => by
    rcases mem_stepSet_iff.mp hv with h | ⟨hnode, _, _⟩
    · exact reachK_subset g a k v h
    · exact List.mem_cons_of_mem a ((mem_dedup_ids_iff g v).mpr hnode)

theorem reachK_length_le (g : Graph) (a : Nat) (k : Nat) :
    (reachK g a k).length ≤ g.nodes.length + 1 := by
  have hsub := List.subperm_of_subset (reachK_nodup g a k) (reachK_subset g a k)
  have hlen := hsub.length_le
  have hdl : ((g.nodes.map (fun n => n.id)).dedup).length ≤ g.nodes.length := by
    have := (List.dedup_sublist (g.nodes.map (fun n => n.id))).length_le
    simpa using this
  simp only [List.length_cons] at hlen
  omega

theorem stepSet_no_growth {g : Graph} {s : List Nat}
    (h : (stepSet g s).length ≤ s.length) : stepSet g s = s := by
  unfold stepSet at *
  rcases hf : ((g.nodes.map (fun n => n.id)).dedup).filter
      (fun v => !s.contains v && s.any (fun u => g.hasEdge u v)) with _ | ⟨x, xs⟩
  · rw [hf, List.append_nil]
  · rw [hf] at h
    simp [List.length_append] at h

theorem reachK_growth (g : Graph) (a : Nat) :
    ∀ k, (∀ j, j < k → reachK g a (j + 1) ≠ reachK g a j) →
      k + 1 ≤ (reachK g a k).length
  | 0, _ => by simp [reachK]
  | k + 1, h => by
    have ih := reachK_growth g a k (fun j hj => h j (by omega))
    have hne := h k (by omega)
    show k + 2 ≤ (stepSet g (reachK g a k)).length
    by_cases hle : (stepSet g (reachK g a k)).length ≤ (reachK g a k).length
    · exact absurd (stepSet_no_growth hle) hne
    · omega

theorem reachK_fix_exists (g : Graph) (a : Nat) :
    ∃ j, j ≤ g.nodes.length ∧ reachK g a (j + 1) = reachK g a j := by
  by_contra hc
  push_neg at hc
  have hgrow : ∀ j, j < g.nodes.length + 1 → reachK g a (j + 1) ≠ reachK g a j := by
    intro j hj
    exact hc j (by omega)
  have := reachK_growth g a (g.nodes.length + 1) hgrow
  have := reachK_length_le g a (g.nodes.length + 1)
  omega

theorem reachK_fix_stable {g : Graph} {a j : Nat}
    (hfix : reachK g a (j + 1) = reachK g a j) :
    ∀ i, j ≤ i → reachK g a i = reachK g a j := by
  intro i
  induction i with
  | zero =>
    intro hj
    have : j = 0 := by omega
    rw [this]
  | succ n ih =>
    intro hj
    by_cases hjn : j = n + 1
    · rw [hjn]
    · have hle : j ≤ n := by omega
      show stepSet g (reachK g a n) = reachK g a j
      rw [ih hle]
      exact hfix

theorem reachK_absorb {g : Graph} {a v : Nat} {m : Nat} (h : v ∈ reachK g a m) :
    v ∈ reachK g a g.nodes.length := by
  by_cases hm : m ≤ g.nodes.length
  · exact reachK_mono g a m g.nodes.length hm v h
  · obtain ⟨j, hj, hfix⟩ := reachK_fix_exists g a
    have h1 : reachK g a m = reachK g a j := reachK_fix_stable hfix m (by omega)
    have h2 : reachK g a g.nodes.length = reachK g a j :=
      reachK_fix_stable hfix g.nodes.length hj
    rw [h2]
    rw [h1] at h
    exact h

theorem chainOk_concat (g : Graph) :
    ∀ (l : List Nat) (u v : Nat), chainOk g l = true →
      l.getLast? = some u → g.hasEdge u v = true → chainOk g (l ++ [v]) = true
  | [], u, v, _, hlast, _ => by simp at hlast
  | [x], u, v, _, hlast, he => by
    have hxu : x = u := by simpa using hlast
    subst hxu
    show (g.hasEdge x v && chainOk g [v]) = true
    simp [he, chainOk]
  | x :: y :: rest, u, v, hchain, hlast, he => by
    obtain ⟨hxy, hrest⟩ := Bool.and_eq_true_iff.mp hchain
    have hlast' : (y :: rest).getLast? = some u := by
      rwa [List.getLast?_cons_cons] at hlast
    show (g.hasEdge x y && chainOk g ((y :: rest) ++ [v])) = true
    rw [Bool.and_eq_true_iff]
    exact ⟨hxy, chainOk_concat g (y :: rest) u v hrest hlast' he⟩

theorem extractPath_spec (g : Graph) (a : Nat) :
    ∀ (k v : Nat), v ∈ reachK g a k →
      (extractPath g a k v).head? = some a ∧
      (extractPath g a k v).getLast? = some v ∧
      chainOk g (extractPath g a k v) = true
  | 0, v, hv => by
    have hva : v = a := by simpa [reachK] using hv
    rw [hva]
    exact ⟨rfl, rfl, rfl⟩
  | k + 1, v, hv => by
    unfold extractPath
    by_cases hmem : (reachK g a k).contains v = true
    · rw [if_pos hmem]
      exact extractPath_spec g a k v (by simpa using hmem)
    · rw [if_neg hmem]
      have hv' : v ∉ reachK g a k := by simpa using hmem
      rcases mem_stepSet_iff.mp hv with h | ⟨_, _, u, hu, he⟩
      · exact absurd h hv'
      · have hfind : ∃ w, (reachK g a k).find? (fun u => g.hasEdge u v) = some w := by
          apply Option.isSome_iff_exists.mp
          rw [List.find?_isSome]
          exact ⟨u, hu, he⟩
        obtain ⟨w, hw⟩ := hfind
        rw [hw]
        have hwmem := List.mem_of_find?_eq_some hw
        have hwadj := List.find?_some hw
        obtain ⟨hhead, hlast, hchain⟩ := extractPath_spec g a k w hwmem
        have hne : extractPath g a k w ≠ [] := by
          intro hnil
          rw [hnil] at hhead
          simp at hhead
        refine ⟨?_, ?_, ?_⟩
        · rw [List.head?_append_of_ne_nil _ hne]
          exact hhead
        · exact List.getLast?_concat _
        · exact chainOk_concat g _ w v hchain hlast hwadj

theorem extractPath_length (g : Graph) (a : Nat) :
    ∀ (k v : Nat), (extractPath g a k v).length ≤ k + 1
  | 0, v => by simp [extractPath]
  | k + 1, v => by
    unfold extractPath
    by_cases hmem : (reachK g a k).contains v = true
    · rw [if_pos hmem]
      have := extractPath_length g a k v
      omega
    · rw [if_neg hmem]
      cases hw : (reachK g a k).find? (fun u => g.hasEdge u v) with
      | none => simp
      | some w =>
        rw [List.length_append]
        have := extractPath_length g a k w
        simp only [List.length_cons, List.length_nil]
        omega

theorem chain_reach (g : Graph) (hwf : g.wf = true) (a : Nat) :
    ∀ (rest : List Nat) (u k : Nat), u ∈ reachK g a k →
      chainOk g (u :: rest) = true →
      ∀ w, (u :: rest).getLast? = some w → w ∈ reachK g a (k + rest.length)
  | [], u, k, hu, _, w, hlast => by
    have : u = w := by simpa using hlast
    subst this
    simpa using hu
  | v :: rest', u, k, hu, hchain, w, hlast => by
    obtain ⟨huv, hrest⟩ := Bool.and_eq_true_iff.mp hchain
    have hv : v ∈ reachK g a (k + 1) := mem_stepSet_of_adj hwf hu huv
    have hlast' : (v :: rest').getLast? = some w := by
      rwa [List.getLast?_cons_cons] at hlast
    have := chain_reach g hwf a rest' v (k + 1) hv hrest w hlast'
    have harith : k + 1 + rest'.length = k + (v :: rest').length := by
      simp [List.length_cons]
      omega
    rwa [harith] at this

theorem validPath_decomp {g : Graph} {q : List Nat} {a b : Nat}
    (hq : validPath g q a b = true) :
    q.head? = some a ∧ q.getLast? = some b ∧ chainOk g q = true := by
  unfold validPath at hq
  obtain ⟨h1, h3⟩ := Bool.and_eq_true_iff.mp hq
  obtain ⟨h1, h2⟩ := Bool.and_eq_true_iff.mp h1
  exact ⟨by simpa using h1, by simpa using h2, h3⟩

theorem validPath_reach {g : Graph} (hwf : g.wf = true) {q : List Nat} {a b : Nat}
    (hq : validPath g q a b = true) : b ∈ reachK g a (q.length - 1) := by
  obtain ⟨hhead, hlast, hchain⟩ := validPath_decomp hq
  rcases q with _ | ⟨x, rest⟩
  · simp at hhead
  · have hxa : x = a := by simpa using hhead
    subst hxa
    have ha0 : x ∈ reachK g x 0 := by simp [reachK]
    have := chain_reach g hwf x rest x 0 ha0 hchain b hlast
    simpa using this

/-- Claim C7: over any well-formed graph (edge endpoints are nodes, as
`networkx` guarantees by construction), the shortest-path search returns
`none` — rather than failing — whenever an endpoint is absent or no path
exists; and whenever it returns a sequence, that sequence is a path from
`a` to `b` (consecutive pairs are edges) and no strictly shorter path
between the same endpoints exists in the graph. -/
theorem C7_shortest_path_correct (g : Graph) (a b : Nat) (hwf : g.wf = true) :
    ((g.hasNode a = false ∨ g.hasNode b = false ∨ ∀ q, validPath g q a b = false) →
      g.shortest_path a b = none) ∧
    (∀ p, g.shortest_path a b = some p →
      validPath g p a b = true ∧ ∀ q, validPath g q a b = true → p.length ≤ q.length) := by
  constructor
  · intro h
    unfold Graph.shortest_path
    by_cases hab : (g.hasNode a && g.hasNode b) = true
    · rw [if_pos hab]
      obtain ⟨ha, hb⟩ := Bool.and_eq_true_iff.mp hab
      rcases h with h | h | h
      · rw [ha] at h
        cases h
      · rw [hb] at h
        cases h
      · cases hk : firstReach g a b with
        | none => rfl
        | some k =>
          unfold firstReach at hk
          obtain ⟨hpk, _, _⟩ := findLeastAux_spec _ _ _ _ hk
          have hbk : b ∈ reachK g a k := by simpa using hpk
          obtain ⟨hh, hl, hc⟩ := extractPath_spec g a k b hbk
          have hvalid : validPath g (extractPath g a k b) a b = true := by
            simp [validPath, hh, hl, hc]
          have hfalse := h (extractPath g a k b)
          rw [hvalid] at hfalse
          cases hfalse
    · rw [if_neg hab]
  · intro p hp
    unfold Graph.shortest_path at hp
    by_cases hab : (g.hasNode a && g.hasNode b) = true
    case neg =>
      rw [if_neg hab] at hp
      cases hp
    case pos =>
      rw [if_pos hab] at hp
      cases hk : firstReach g a b with
      | none =>
        rw [hk] at hp
        cases hp
      | some k =>
        rw [hk] at hp
        have hpe : p = extractPath g a k b := by
          cases hp
          rfl
        subst hpe
        unfold firstReach at hk
        obtain ⟨hpk, _, hmin⟩ := findLeastAux_spec _ _ _ _ hk
        have hbk : b ∈ reachK g a k := by simpa using hpk
        obtain ⟨hh, hl, hc⟩ := extractPath_spec g a k b hbk
        constructor
        · simp [validPath, hh, hl, hc]
        · intro q hq
          have hbq := validPath_reach hwf hq
          obtain ⟨hqh, _, _⟩ := validPath_decomp hq
          have hqlen : 1 ≤ q.length := by
            cases q
            · simp at hqh
            · simp
          have hkle : k ≤ q.length - 1 := by
            by_contra hlt
            push_neg at hlt
            have hpred : (reachK g a (q.length - 1)).contains b = true := by
              simpa using hbq
            have hfalse := hmin (q.length - 1) (by omega) (by omega)
            rw [hfalse] at hpred
            cases hpred
          have hplen := extractPath_length g a k b
          omega

/-- Witness for `C7_shortest_path_correct` on the two-node graph `gLeft`. -/
theorem C7_shortest_path_correct_witness :
    gLeft.wf = true ∧
    (((gLeft.hasNode 1 = false ∨ gLeft.hasNode 2 = false ∨
        ∀ q, validPath gLeft q 1 2 = false) →
      gLeft.shortest_path 1 2 = none) ∧
     (∀ p, gLeft.shortest_path 1 2 = some p →
      validPath gLeft p 1 2 = true ∧
        ∀ q, validPath gLeft q 1 2 = true → p.length ≤ q.length)) :=
  ⟨by decide, C7_shortest_path_correct gLeft 1 2 (by decide)⟩

/-! Direct-hit development (claim C8): when the first crawl already holds
`actor2`, the connection procedure reduces to a shortest-path query on
that graph. -/

theorem build_hasNode_seed (p : Provider) (start D m fuel : Nat) :
    ((build_actor_graph p start D m fuel).1).g.hasNode start = true := by
  unfold build_actor_graph
  have hpres := nodePres_crawlLoop p D m fuel
    { g := Graph.empty.addNode start (seedData p start).name
        (imageUrl (seedData p start).profile_path),
      visitedActors := [], visitedMovies := [],
      queue := [(start, 0)], trace := [Fetch.credits start], expanded := [] }
  exact hasNode_of_findNode (hpres start _ (findNode_seed_initial start _ _))

theorem shortest_path_adjacent {g : Graph} {a b : Nat} (hne : a ≠ b)
    (ha : g.hasNode a = true) (hb : g.hasNode b = true) (he : g.hasEdge a b = true) :
    g.shortest_path a b = some [a, b] := by
  have hN : 1 ≤ g.nodes.length := by
    unfold Graph.hasNode at ha
    obtain ⟨n, hn, _⟩ := List.any_eq_true.mp ha
    have hpos := List.length_pos_of_mem hn
    omega
  have hb1 : b ∈ reachK g a 1 := by
    show b ∈ stepSet g (reachK g a 0)
    apply mem_stepSet_iff.mpr
    right
    refine ⟨hb, ?_, a, ?_, he⟩
    · show b ∉ [a]
      intro hmem
      have hba : b = a := by simpa using hmem
      exact hne hba.symm
    · show a ∈ [a]
      simp
  have hpred1 : (reachK g a 1).contains b = true := by simpa using hb1
  have hpred0 : (reachK g a 0).contains b = false := by
    show ([a].contains b) = false
    simp only [List.contains_cons, List.contains_nil, Bool.or_false]
    rw [beq_eq_false_iff_ne]
    exact Ne.symm hne
  have hfr : firstReach g a b = some 1 := by
    unfold firstReach
    obtain ⟨r, hr⟩ := findLeastAux_complete
      (fun k => (reachK g a k).contains b) (g.nodes.length + 1) 0 1
      (by omega) (by omega) hpred1
    obtain ⟨hpr, _, hmin⟩ := findLeastAux_spec _ _ _ _ hr
    have hr1 : r = 1 := by
      by_cases h0 : r = 0
      · rw [h0] at hpr
        rw [hpred0] at hpr
        cases hpr
      · by_contra hne1
        have h1r : 1 < r := by omega
        have hf := hmin 1 (by omega) h1r
        rw [hf] at hpred1
        cases hpred1
    rw [hr, hr1]
  unfold Graph.shortest_path
  rw [ha, hb]
  simp only [Bool.and_self, if_true]
  rw [hfr]
  show some (extractPath g a 1 b) = some [a, b]
  congr 1
  show (if (reachK g a 0).contains b = true then extractPath g a 0 b
    else match (reachK g a 0).find? (fun u => g.hasEdge u b) with
      | some u => extractPath g a 0 u ++ [b]
      | none => [b]) = [a, b]
  rw [if_neg (by rw [hpred0]; exact Bool.false_ne_true)]
  rw [show (reachK g a 0).find? (fun u => g.hasEdge u b) = some a from
    List.find?_cons_of_pos _ he]
  rfl

/-- Claim C8: whenever the first crawl's graph already contains `actor2`,
`find_actor_connection` performs no second crawl and no bridging — the
result is exactly the first graph, the first crawl's provider-call trace,
zero bridges, and the shortest path computed on that graph; when moreover
the two (distinct) actors are adjacent there, the returned path is the
2-node path `[actor1, actor2]`. -/
theorem C8_direct_hit (p : Provider) (a1 a2 fuel : Nat)
    (h : ((build_actor_graph p a1 2 5 fuel).1).g.hasNode a2 = true) :
    (find_actor_connection p a1 a2 fuel =
      { g := ((build_actor_graph p a1 2 5 fuel).1).g,
        path := ((build_actor_graph p a1 2 5 fuel).1).g.shortest_path a1 a2,
        trace := ((build_actor_graph p a1 2 5 fuel).1).trace,
        bridges := 0 }) ∧
    (a1 ≠ a2 → ((build_actor_graph p a1 2 5 fuel).1).g.hasEdge a1 a2 = true →
      (find_actor_connection p a1 a2 fuel).path = some [a1, a2]) := by
  have hseed := build_hasNode_seed p a1 2 5 fuel
  have hmain : find_actor_connection p a1 a2 fuel =
      { g := ((build_actor_graph p a1 2 5 fuel).1).g,
        path := ((build_actor_graph p a1 2 5 fuel).1).g.shortest_path a1 a2,
        trace := ((build_actor_graph p a1 2 5 fuel).1).trace,
        bridges := 0 } := by
    unfold find_actor_connection
    simp only [h, hseed, if_true, Bool.and_self]
  refine ⟨hmain, fun hne he => ?_⟩
  rw [hmain]
  show ((build_actor_graph p a1 2 5 fuel).1).g.shortest_path a1 a2 = some [a1, a2]
  exact shortest_path_adjacent hne hseed h he

/-- Witness for `C8_direct_hit`: in the C1 scenario crawl from seed 1,
actor 2 is already in the first graph and adjacent to the seed, so the
connection procedure returns the 2-node path without a second crawl. -/
theorem C8_direct_hit_witness :
    ((build_actor_graph (scenarioProvider 1 2 3) 1 2 5 20).1).g.hasNode 2 = true ∧
    (1 : Nat) ≠ 2 ∧
    ((build_actor_graph (scenarioProvider 1 2 3) 1 2 5 20).1).g.hasEdge 1 2 = true ∧
    (find_actor_connection (scenarioProvider 1 2 3) 1 2 20).path = some [1, 2] :=
  ⟨by decide, by decide, by decide,
   (C8_direct_hit (scenarioProvider 1 2 3) 1 2 20 (by decide)).2 (by decide) (by decide)⟩
